import Mathlib

/-!
Verification of the yent inference engine (Go sources).

Shallow embedding conventions:
* `float32` values are modelled as exact rationals (`ℚ`); rounding is not
  modelled, so all algebraic identities below are exact-arithmetic statements
  about the code's formulas.
* Bytes are `ℕ` constrained below 256 where it matters; buffers are `List ℚ`.
* The source's `-1e30` suppression/sentinel constant is modelled by `negInf`.
* `exp` (used only through `math.Exp` in the samplers) is kept as an abstract
  parameter `expFn : ℚ → ℚ`, assumed positive where a claim needs it.
-/

namespace Yent

/-- The source's `-1e30` sentinel (used both for CJK suppression and as the
top-k table's initial value). -/
def negInf : ℚ := -(10 ^ 30)

/-- Modelled from the spec: `half2float` (the 2-byte half-precision scale
decoder) is not in the provided sources; the spec says scales are IEEE 754
half-precision (binary16) values, so this decodes a 16-bit pattern as
sign/exponent/fraction.  Infinities and NaNs (exponent 31) are given their
finite formula value; no claim below touches them. -/
def half2float (h : ℕ) : ℚ :=
  let sign : ℚ := if (h / 32768) % 2 = 1 then -1 else 1
  let ex := (h / 1024) % 32
  let frac := h % 1024
  if ex = 0 then sign * (frac : ℚ) / 2 ^ 24
  else sign * ((1024 + frac : ℕ) : ℚ) / 2 ^ 10 * 2 ^ ex / 2 ^ 15

/-- One step of `DequantQ4_0Block`'s loop body: byte `2+j` of the block is
split into nibbles; the low nibble lands in slot `j`, the high nibble in slot
`j+16`, each biased by −8 and scaled (from `quant.go`). -/
def q4SetSlots (block : List ℕ) (d : ℚ) (o : List ℚ) (j : ℕ) : List ℚ :=
  let b := block.getD (2 + j) 0
  let v0 : ℤ := (b % 16 : ℕ) - 8
  let v1 : ℤ := (b / 16 : ℕ) - 8
  (o.set j ((v0 : ℚ) * d)).set (j + 16) ((v1 : ℚ) * d)

/-- `DequantQ4_0Block` from `quant.go`: first two bytes are the little-endian
half-precision scale, the next 16 bytes hold 32 packed nibbles. -/
def dequantQ4_0Block (block : List ℕ) (out : List ℚ) : List ℚ :=
  let d := half2float (block.getD 0 0 + 256 * block.getD 1 0)
  (List.range 16).foldl (q4SetSlots block d) out

/-- `DeltaVoice` from `delta.go`: the low-rank correction factors, row-major. -/
structure DeltaVoice where
  VocabSize : ℕ
  HiddenDim : ℕ
  Rank : ℕ
  A : List ℚ
  B : List ℚ
deriving Repr, DecidableEq

/-- Dot product of `n` entries of `w` starting at offset `woff` against the
first `n` entries of `x` — the inner loops of `ApplyToLogits`. -/
def dotOff (w x : List ℚ) (woff : ℕ) : ℕ → ℚ
  | 0 => 0
  | n + 1 => dotOff w x woff n + w.getD (woff + n) 0 * x.getD n 0

/-- Step 1 of `ApplyToLogits`: `Bx = B @ x` (a rank-length vector). -/
def bxVec (d : DeltaVoice) (x : List ℚ) : List ℚ :=
  (List.range d.Rank).map fun r => dotOff d.B x (r * d.HiddenDim) d.HiddenDim

/-- `DeltaVoice.ApplyToLogits` from `delta.go`: returns the logits unchanged
when `alpha == 0`, otherwise adds `alpha * A @ (B @ x)` to the first
`VocabSize` entries. -/
def applyToLogits (d : DeltaVoice) (logits x : List ℚ) (alpha : ℚ) : List ℚ :=
  if alpha = 0 then logits
  else
    let bx := bxVec d x
    logits.mapIdx fun i l =>
      if i < d.VocabSize then l + alpha * dotOff d.A bx (i * d.Rank) d.Rank else l

-- ===== helper lemmas =====

theorem getD_set_self (l : List ℚ) (i : ℕ) (v : ℚ) (h : i < l.length) :
    (l.set i v).getD i 0 = v := by
  simp [List.getD, List.getElem?_set_self, h]

theorem getD_set_other (l : List ℚ) (i j : ℕ) (v : ℚ) (h : i ≠ j) :
    (l.set i v).getD j 0 = l.getD j 0 := by
  simp [List.getD, List.getElem?_set_ne h]

theorem length_q4SetSlots (block : List ℕ) (d : ℚ) (o : List ℚ) (j : ℕ) :
    (q4SetSlots block d o j).length = o.length := by
  simp [q4SetSlots]

theorem length_q4Fold (block : List ℕ) (d : ℚ) (o : List ℚ) : ∀ n : ℕ,
    ((List.range n).foldl (q4SetSlots block d) o).length = o.length := by
  intro n
  induction n with
  | zero => simp
  | succ n ih =>
      rw [List.range_succ, List.foldl_append]
      simp [length_q4SetSlots, ih]

/-- After folding the first `n` bytes, low slot `j < n` holds its nibble value. -/
theorem q4Fold_low (block : List ℕ) (d : ℚ) (o : List ℚ) :
    ∀ n j, j < n → n ≤ 16 → 32 ≤ o.length →
    ((List.range n).foldl (q4SetSlots block d) o).getD j 0 =
      (((block.getD (2 + j) 0 % 16 : ℕ) - 8 : ℤ) : ℚ) * d := by
  intro n
  induction n with
  | zero => intro j hj; omega
  | succ n ih =>
      intro j hj hn ho
      rw [List.range_succ, List.foldl_append]
      simp only [List.foldl_cons, List.foldl_nil]
      rcases Nat.lt_or_ge j n with h | h
      · rw [show q4SetSlots block d ((List.range n).foldl (q4SetSlots block d) o) n =
              ((((List.range n).foldl (q4SetSlots block d) o).set n _).set (n + 16) _) from rfl]
        rw [getD_set_other _ _ _ _ (by omega), getD_set_other _ _ _ _ (by omega)]
        exact ih j h (by omega) ho
      · have hjn : j = n := by omega
        subst hjn
        rw [show q4SetSlots block d ((List.range j).foldl (q4SetSlots block d) o) j =
              ((((List.range j).foldl (q4SetSlots block d) o).set j
                ((((block.getD (2 + j) 0 % 16 : ℕ) - 8 : ℤ) : ℚ) * d)).set (j + 16) _) from rfl]
        rw [getD_set_other _ _ _ _ (by omega)]
        exact getD_set_self _ _ _ (by rw [length_q4Fold]; omega)

/-- After folding the first `n` bytes, high slot `j + 16` (`j < n`) holds its
nibble value. -/
theorem q4Fold_high (block : List ℕ) (d : ℚ) (o : List ℚ) :
    ∀ n j, j < n → n ≤ 16 → 32 ≤ o.length →
    ((List.range n).foldl (q4SetSlots block d) o).getD (j + 16) 0 =
      (((block.getD (2 + j) 0 / 16 : ℕ) - 8 : ℤ) : ℚ) * d := by
  intro n
  induction n with
  | zero => intro j hj; omega
  | succ n ih =>
      intro j hj hn ho
      rw [List.range_succ, List.foldl_append]
      simp only [List.foldl_cons, List.foldl_nil]
      rcases Nat.lt_or_ge j n with h | h
      · rw [show q4SetSlots block d ((List.range n).foldl (q4SetSlots block d) o) n =
              ((((List.range n).foldl (q4SetSlots block d) o).set n _).set (n + 16) _) from rfl]
        rw [getD_set_other _ _ _ _ (by omega), getD_set_other _ _ _ _ (by omega)]
        exact ih j h (by omega) ho
      · have hjn : j = n := by omega
        subst hjn
        rw [show q4SetSlots block d ((List.range j).foldl (q4SetSlots block d) o) j =
              ((((List.range j).foldl (q4SetSlots block d) o).set j _).set (j + 16)
                ((((block.getD (2 + j) 0 / 16 : ℕ) - 8 : ℤ) : ℚ) * d)) from rfl]
        exact getD_set_self _ _ _ (by rw [List.length_set, length_q4Fold]; omega)

theorem dequant_eq_fold (block : List ℕ) (out : List ℚ) :
    dequantQ4_0Block block out =
      (List.range 16).foldl
        (q4SetSlots block (half2float (block.getD 0 0 + 256 * block.getD 1 0)))
        out := rfl

/-- C8: Q4_0 dequantization decodes a 32-element block as: the low nibble of
packed byte `j` fills slot `j` and the high nibble fills slot `j+16`, each
mapped to a signed value by subtracting 8 and multiplied by the half-precision
scale decoded from the first two (little-endian) bytes; and the concrete block
with scale bits `0x3C00` (= 1.0) and all nibbles 8 (bytes `0x88`) dequantizes
to 32 zeros. -/
theorem C8_dequantQ4_0Block_layout (block : List ℕ) (out : List ℚ) (j : ℕ)
    (hj : j < 16) (ho : 32 ≤ out.length) :
    ((dequantQ4_0Block block out).getD j 0 =
        (((block.getD (2 + j) 0 % 16 : ℕ) - 8 : ℤ) : ℚ)
          * half2float (block.getD 0 0 + 256 * block.getD 1 0) ∧
      (dequantQ4_0Block block out).getD (j + 16) 0 =
        (((block.getD (2 + j) 0 / 16 : ℕ) - 8 : ℤ) : ℚ)
          * half2float (block.getD 0 0 + 256 * block.getD 1 0)) ∧
    dequantQ4_0Block ([0, 60] ++ List.replicate 16 136) (List.replicate 32 0) =
      List.replicate 32 0 := by
  refine ⟨⟨?_, ?_⟩, ?_⟩
  · rw [dequant_eq_fold]
    exact q4Fold_low block _ out 16 j hj (by omega) ho
  · rw [dequant_eq_fold]
    exact q4Fold_high block _ out 16 j hj (by omega) ho
  · norm_num [dequantQ4_0Block, q4SetSlots, half2float, List.range_succ]

/-- Witness for C8 at a concrete block (slot 3 of the all-zero test block). -/
theorem C8_witness :
    (dequantQ4_0Block ([0, 60] ++ List.replicate 16 136)
        (List.replicate 32 0)).getD 3 0 =
      ((((([0, 60] ++ List.replicate 16 136 : List ℕ).getD (2 + 3) 0 % 16 : ℕ)
          - 8 : ℤ)) : ℚ)
        * half2float (([0, 60] ++ List.replicate 16 136 : List ℕ).getD 0 0
            + 256 * ([0, 60] ++ List.replicate 16 136 : List ℕ).getD 1 0) :=
  (C8_dequantQ4_0Block_layout ([0, 60] ++ List.replicate 16 136)
    (List.replicate 32 0) 3 (by decide) (by decide)).1.1

/-- C2: `ApplyToLogits` with `alpha = 0` returns the logits buffer unchanged;
with `alpha ≠ 0` it adds `alpha * (A @ (B @ x))[i]` to each logit `i` in
range. -/
theorem C2_applyToLogits_zero_noop (d : DeltaVoice) (logits x : List ℚ)
    (alpha : ℚ) :
    applyToLogits d logits x 0 = logits ∧
    (alpha ≠ 0 → ∀ i, i < logits.length → i < d.VocabSize →
      (applyToLogits d logits x alpha).getD i 0 =
        logits.getD i 0 + alpha * dotOff d.A (bxVec d x) (i * d.Rank) d.Rank) := by
  constructor
  · simp [applyToLogits]
  · intro ha i hi hv
    unfold applyToLogits
    rw [if_neg ha]
    have hlen : i < (logits.mapIdx fun i l =>
        if i < d.VocabSize then l + alpha * dotOff d.A (bxVec d x) (i * d.Rank) d.Rank
        else l).length := by
      simpa using hi
    rw [List.getD_eq_getElem _ _ hlen, List.getElem_mapIdx, if_pos hv,
      List.getD_eq_getElem _ _ hi]

/-- Witness for C2 at a concrete delta (vocab 2, hidden 1, rank 1). -/
theorem C2_witness :
    (applyToLogits ⟨2, 1, 1, [1, 2], [3]⟩ [5, 7] [2] 1).getD 0 0 =
      ([5, 7] : List ℚ).getD 0 0 +
        1 * dotOff ([1, 2] : List ℚ) (bxVec ⟨2, 1, 1, [1, 2], [3]⟩ [2]) (0 * 1) 1 :=
  (C2_applyToLogits_zero_noop ⟨2, 1, 1, [1, 2], [3]⟩ [5, 7] [2] 1).2
    (by norm_num) 0 (by decide) (by decide)

/-- The repetition-penalty update for one logit occurrence (the `Generate`
loop body in `yent.go`): positive logits are divided by the penalty, all
others multiplied by it. -/
def penalizeLogit (p l : ℚ) : ℚ := if 0 < l then l / p else l * p

/-- The repetition-penalty sweep over the recent-token window (`Generate` in
`yent.go`); tokens outside `[0, vocab)` are skipped, and a token occurring
several times in the window is penalized once per occurrence, as in the
source loop. -/
def applyRepWindow (p : ℚ) (vocab : ℕ) (window : List ℤ) (logits : List ℚ) :
    List ℚ :=
  window.foldl
    (fun lg tok =>
      if 0 ≤ tok ∧ tok < (vocab : ℤ) then
        lg.set tok.toNat (penalizeLogit p (lg.getD tok.toNat 0))
      else lg)
    logits

/-- The guard around the sweep: `RepPenalty > 1.0 && len(recentTokens) > 0`. -/
def repStep (p : ℚ) (vocab : ℕ) (window : List ℤ) (logits : List ℚ) : List ℚ :=
  if 1 < p ∧ window ≠ [] then applyRepWindow p vocab window logits else logits

/-- C6 counterexample: with the engine's default penalty 1.15 (= 23/20) and a
negative logit −2, the penalized logit is −2.3, whose magnitude is strictly
larger than 2 — the penalty does not move negative logits toward zero. -/
theorem C6_counterexample :
    penalizeLogit (23 / 20) (-2) = -(23 / 10) ∧
    ¬ |penalizeLogit (23 / 20) (-2)| < |(-2 : ℚ)| := by
  have he : penalizeLogit (23 / 20) (-2) = -(23 / 10) := by norm_num [penalizeLogit]
  refine ⟨he, ?_⟩
  rw [he, abs_of_neg (by norm_num : -(23 / 10 : ℚ) < 0),
    abs_of_neg (by norm_num : (-2 : ℚ) < 0)]
  norm_num

/-- C6 (amended): for penalty > 1, a window token's logit strictly decreases
when nonzero: positive logits are multiplied by `1/penalty` (magnitude shrinks
toward zero, staying positive), negative logits are multiplied by `penalty`
(magnitude strictly grows); a single in-range window occurrence rewrites
exactly that token's logit through this map. -/
theorem C6_penalty_amended (p l : ℚ) (hp : 1 < p) :
    (0 < l → penalizeLogit p l = l / p ∧ penalizeLogit p l < l ∧
      0 < penalizeLogit p l ∧ |penalizeLogit p l| < |l|) ∧
    (l < 0 → penalizeLogit p l = l * p ∧ penalizeLogit p l < l ∧
      |l| < |penalizeLogit p l|) ∧
    (∀ (vocab : ℕ) (logits : List ℚ) (tok : ℤ), 0 ≤ tok → tok < (vocab : ℤ) →
      applyRepWindow p vocab [tok] logits =
        logits.set tok.toNat (penalizeLogit p (logits.getD tok.toNat 0))) := by
  have hp0 : 0 < p := lt_trans one_pos hp
  refine ⟨?_, ?_, ?_⟩
  · intro hl
    have he : penalizeLogit p l = l / p := if_pos hl
    have h1 : l / p < l := div_lt_self hl hp
    have h2 : 0 < l / p := div_pos hl hp0
    refine ⟨he, he ▸ h1, he ▸ h2, ?_⟩
    rw [he, abs_of_pos h2, abs_of_pos hl]
    exact h1
  · intro hl
    have he : penalizeLogit p l = l * p := if_neg (by exact fun h => absurd hl (not_lt.mpr h.le))
    have h1 : l * p < l := by nlinarith
    refine ⟨he, he ▸ h1, ?_⟩
    rw [he, abs_of_neg hl, abs_of_neg (by nlinarith : l * p < 0)]
    nlinarith
  · intro vocab logits tok h0 h1
    simp [applyRepWindow, h0, h1]

/-- Witness for C6 (amended) at penalty 1.15 with logits 5 and −2. -/
theorem C6_witness :
    penalizeLogit (23 / 20) 5 = 5 / (23 / 20) ∧
    penalizeLogit (23 / 20) (-2) = (-2) * (23 / 20) :=
  ⟨((C6_penalty_amended (23 / 20) 5 (by norm_num)).1 (by norm_num)).1,
   ((C6_penalty_amended (23 / 20) (-2) (by norm_num)).2.1 (by norm_num)).1⟩

/-- `ModelConfig` (the fields the delta validation reads). -/
structure ModelConfig where
  VocabSize : ℕ
  EmbedDim : ℕ
deriving Repr, DecidableEq

/-- The engine fields involved in delta loading and the `Generate` delta step
(`Yent` struct in `yent.go`). -/
structure YentEngine where
  cfg : ModelConfig
  delta : Option DeltaVoice
  DeltaAlpha : ℚ
deriving Repr, DecidableEq

/-- `LoadDeltaVoice` from `yent.go`: validates the loaded delta's dimensions
against the model config; on failure returns the error and leaves the
engine's delta field untouched.  The file-level result of `LoadDelta` is the
`res` argument (file I/O abstracted as an `Except`). -/
def loadDeltaVoice (y : YentEngine) (res : Except String DeltaVoice) :
    YentEngine × Option String :=
  match res with
  | .error e => (y, some ("load delta: " ++ e))
  | .ok d =>
    if d.VocabSize ≠ y.cfg.VocabSize then (y, some "delta vocab mismatch")
    else if d.HiddenDim ≠ y.cfg.EmbedDim then (y, some "delta hidden mismatch")
    else ({ y with delta := some d }, none)

/-- `SetAlpha` from `yent.go`: clamps alpha into `[0, 1]`. -/
def setAlpha (y : YentEngine) (alpha : ℚ) : YentEngine :=
  { y with DeltaAlpha := if alpha < 0 then 0 else if 1 < alpha then 1 else alpha }

/-- The delta step of `Generate` (`yent.go`): the correction is applied only
when a delta is loaded and `DeltaAlpha > 0`. -/
def generateDeltaStep (y : YentEngine) (logits x : List ℚ) : List ℚ :=
  match y.delta with
  | some d =>
      if 0 < y.DeltaAlpha then applyToLogits d logits x y.DeltaAlpha else logits
  | none => logits

/-- Outcome of the CLI's delta-loading block (`main` in the top-level
`yent.go`). -/
inductive MainOutcome where
  | exited : ℕ → MainOutcome
  | proceeding : YentEngine → MainOutcome
deriving Repr, DecidableEq

/-- `main`'s handling of a provided delta path (top-level `yent.go`, the
`if *deltaPath != ""` block): a load error prints and exits with status 1;
success sets alpha and proceeds. -/
def mainHandleDelta (y : YentEngine) (res : Except String DeltaVoice)
    (alpha : ℚ) : MainOutcome :=
  match loadDeltaVoice y res with
  | (_, some _) => .exited 1
  | (y2, none) => .proceeding (setAlpha y2 alpha)

/-- C1 counterexample: a vocabulary-size mismatch (delta vocab 4 vs model
vocab 5) makes the CLI exit with status 1 instead of proceeding without the
correction — at the process level the delta load failure is fatal, not
recoverable. -/
theorem C1_counterexample :
    mainHandleDelta ⟨⟨5, 3⟩, none, 0⟩ (Except.ok ⟨4, 3, 1, [], []⟩) (1 / 2) =
      MainOutcome.exited 1 := rfl

/-- C1 (amended): at the library level the failure is recoverable exactly as
claimed: `LoadDeltaVoice` with a vocabulary-size mismatch returns a
dimension-mismatch error, the engine's delta field stays disabled (`none`),
and generation proceeds without the correction (`generateDeltaStep` leaves
logits unchanged); the CLI `main`, however, exits with status 1 on that same
failure. -/
theorem C1_loadDeltaVoice_recoverable (y : YentEngine) (d : DeltaVoice)
    (hd : y.delta = none) (hv : d.VocabSize ≠ y.cfg.VocabSize) :
    (loadDeltaVoice y (.ok d)).2 = some "delta vocab mismatch" ∧
    (loadDeltaVoice y (.ok d)).1.delta = none ∧
    (∀ logits x : List ℚ,
      generateDeltaStep (loadDeltaVoice y (.ok d)).1 logits x = logits) := by
  refine ⟨by simp [loadDeltaVoice, hv], by simp [loadDeltaVoice, hv, hd], ?_⟩
  intro logits x
  simp [loadDeltaVoice, hv, generateDeltaStep, hd]

/-- Witness for C1 (amended) at the concrete mismatched delta. -/
theorem C1_witness :
    (loadDeltaVoice ⟨⟨5, 3⟩, none, 0⟩ (.ok ⟨4, 3, 1, [], []⟩)).1.delta = none ∧
    generateDeltaStep (loadDeltaVoice ⟨⟨5, 3⟩, none, 0⟩
        (.ok ⟨4, 3, 1, [], []⟩)).1 [1, 2] [3] = [1, 2] :=
  ⟨(C1_loadDeltaVoice_recoverable ⟨⟨5, 3⟩, none, 0⟩ ⟨4, 3, 1, [], []⟩ rfl
      (by decide)).2.1,
   (C1_loadDeltaVoice_recoverable ⟨⟨5, 3⟩, none, 0⟩ ⟨4, 3, 1, [], []⟩ rfl
      (by decide)).2.2 [1, 2] [3]⟩

/-- Abstract environment for the decode loop of `Generate` (`yent.go`).
`sampleAt i` is the token id the sampler returns at decode iteration `i`
(abstracting the model state, field physics and RNG, which do not change the
loop's control-flow shape); `decodeTok` is `tokenizer.DecodeToken` as raw
UTF-8 bytes; `seqLen` is `model.Config.SeqLen`. -/
structure GenEnv where
  eosId : ℤ
  imEndId : ℤ
  seqLen : ℕ
  sampleAt : ℕ → ℤ
  decodeTok : ℤ → List ℕ

/-- The stop test `next == y.tokenizer.EosID || next == y.imEndID`. -/
def isStop (env : GenEnv) (t : ℤ) : Bool := t == env.eosId || t == env.imEndId

/-- The grace-window sentence test: output nonempty and its last byte is
`'.'`, `'!'`, `'?'` or `'\n'` (bytes 46, 33, 63, 10). -/
def graceEnd (out : List ℕ) : Bool :=
  match out.getLast? with
  | some b => b == 46 || b == 33 || b == 63 || b == 10
  | none => false

/-- The decode loop of `Generate` (`yent.go`), one iteration per fuel unit:
runs while `i < maxTokens + 32` (mirrored by `fuel`) and `len(output) < 4096`;
in the grace window (`i ≥ maxTokens`) it stops once the output ends a
sentence; it samples, breaks before decoding on a stop token, otherwise
appends the decoded piece, feeds the token through `Forward` (counted), and
breaks when the position reaches `seqLen`.  Returns (output bytes, sampled
tokens, decode-phase `Forward` call count). -/
def genLoopAux (env : GenEnv) (mt : ℕ) :
    ℕ → ℕ → ℕ → List ℕ → List ℤ → ℕ → List ℕ × List ℤ × ℕ
  | 0, _, _, out, sampled, fwd => (out, sampled, fwd)
  | fuel + 1, i, pos, out, sampled, fwd =>
    if 4096 ≤ out.length then (out, sampled, fwd)
    else if mt ≤ i ∧ graceEnd out = true then (out, sampled, fwd)
    else if isStop env (env.sampleAt i) = true then
      (out, sampled ++ [env.sampleAt i], fwd)
    else if env.seqLen ≤ pos + 1 then
      (out ++ env.decodeTok (env.sampleAt i), sampled ++ [env.sampleAt i], fwd + 1)
    else
      genLoopAux env mt fuel (i + 1) (pos + 1)
        (out ++ env.decodeTok (env.sampleAt i)) (sampled ++ [env.sampleAt i])
        (fwd + 1)

/-- `Generate`'s decode phase: the loop starts at `i = 0` with the position
left by the prompt replay, empty output and `maxTokens + 32` available
iterations (`graceLimit = 32`). -/
def generate (env : GenEnv) (mt pos0 : ℕ) : List ℕ × List ℤ × ℕ :=
  genLoopAux env mt (mt + 32) 0 pos0 [] [] 0

/-- Master characterization of the decode loop: it appends some list `new` of
sampled tokens of which only the last can be a stop token, appends to the
output exactly the decoded pieces of the non-stop ones, and makes one
`Forward` call per non-stop sampled token. -/
theorem genLoopAux_spec (env : GenEnv) (mt : ℕ) :
    ∀ (fuel i pos : ℕ) (out : List ℕ) (s : List ℤ) (f : ℕ),
    ∃ new : List ℤ,
      (genLoopAux env mt fuel i pos out s f).2.1 = s ++ new ∧
      new.length ≤ fuel ∧
      (∀ k, k + 1 < new.length → isStop env (new.getD k 0) = false) ∧
      (genLoopAux env mt fuel i pos out s f).1 =
        out ++ (new.filter fun t => ! isStop env t).flatMap env.decodeTok ∧
      (genLoopAux env mt fuel i pos out s f).2.2 =
        f + (new.filter fun t => ! isStop env t).length := by
  intro fuel
  induction fuel with
  | zero =>
      intro i pos out s f
      refine ⟨[], ?_, ?_, ?_, ?_, ?_⟩ <;> simp [genLoopAux]
  | succ fuel ih =>
      intro i pos out s f
      by_cases h1 : 4096 ≤ out.length
      · refine ⟨[], ?_, ?_, ?_, ?_, ?_⟩ <;> simp [genLoopAux, h1]
      · by_cases h2 : mt ≤ i ∧ graceEnd out = true
        · refine ⟨[], ?_, ?_, ?_, ?_, ?_⟩ <;> simp [genLoopAux, h1, h2]
        · by_cases h3 : isStop env (env.sampleAt i) = true
          · refine ⟨[env.sampleAt i], ?_, ?_, ?_, ?_, ?_⟩ <;>
              simp [genLoopAux, h1, h2, h3]
          · by_cases h4 : env.seqLen ≤ pos + 1
            · refine ⟨[env.sampleAt i], ?_, ?_, ?_, ?_, ?_⟩ <;>
                simp [genLoopAux, h1, h2, h3, h4]
            · have hstep : genLoopAux env mt (fuel + 1) i pos out s f =
                  genLoopAux env mt fuel (i + 1) (pos + 1)
                    (out ++ env.decodeTok (env.sampleAt i))
                    (s ++ [env.sampleAt i]) (f + 1) := by
                simp [genLoopAux, h1, h2, h3, h4]
              obtain ⟨new, hs, hlen, hns, hout, hfwd⟩ :=
                ih (i + 1) (pos + 1) (out ++ env.decodeTok (env.sampleAt i))
                  (s ++ [env.sampleAt i]) (f + 1)
              refine ⟨env.sampleAt i :: new, ?_, ?_, ?_, ?_, ?_⟩
              · rw [hstep, hs]; simp
              · simpa using Nat.succ_le_succ hlen
              · intro k hk
                cases k with
                | zero => simpa using h3
                | succ k2 =>
                    have hk2 : k2 + 1 < new.length := by
                      simpa using Nat.lt_of_succ_lt_succ hk
                    simpa using hns k2 hk2
              · rw [hstep, hout]
                simp [List.filter_cons, h3]
              · rw [hstep, hfwd]
                simp [List.filter_cons, h3]
                omega

/-- If the element at index `k` is the only possible stop token (all earlier
ones are non-stop) and the list has length `k + 1` with a stop at `k`, the
non-stop filter keeps exactly `k` elements. -/
theorem filter_length_of_stop_last (env : GenEnv) :
    ∀ (new : List ℤ) (k : ℕ), new.length = k + 1 →
    (∀ j, j + 1 < new.length → isStop env (new.getD j 0) = false) →
    isStop env (new.getD k 0) = true →
    (new.filter fun t => ! isStop env t).length = k := by
  intro new
  induction new with
  | nil => intro k hk; simp at hk
  | cons a new2 ih =>
      intro k hlen hns hstop
      cases k with
      | zero =>
          have h2 : new2 = [] := by
            have := hlen; simp at this; exact this
          subst h2
          simp at hstop
          simp [List.filter_cons, hstop]
      | succ k2 =>
          have ha : isStop env a = false := by
            have := hns 0 (by rw [hlen]; omega)
            simpa using this
          have hlen2 : new2.length = k2 + 1 := by simpa using hlen
          have hns2 : ∀ j, j + 1 < new2.length →
              isStop env (new2.getD j 0) = false := by
            intro j hj
            have := hns (j + 1) (by simp; omega)
            simpa using this
          have hstop2 : isStop env (new2.getD k2 0) = true := by
            simpa using hstop
          have := ih k2 hlen2 hns2 hstop2
          simp [List.filter_cons, ha, this]

/-- The output never grows past the 4096-byte ceiling plus one decoded piece:
the ceiling is checked before each iteration, and each iteration appends at
most one piece. -/
theorem genLoopAux_output_bound (env : GenEnv) (mt L : ℕ)
    (hL : ∀ t, (env.decodeTok t).length ≤ L) :
    ∀ (fuel i pos : ℕ) (out : List ℕ) (s : List ℤ) (f : ℕ),
    out.length < 4096 + L →
    (genLoopAux env mt fuel i pos out s f).1.length < 4096 + L := by
  intro fuel
  induction fuel with
  | zero => intro i pos out s f h; simpa [genLoopAux] using h
  | succ fuel ih =>
      intro i pos out s f h
      by_cases h1 : 4096 ≤ out.length
      · simpa [genLoopAux, h1] using h
      · by_cases h2 : mt ≤ i ∧ graceEnd out = true
        · simpa [genLoopAux, h1, h2] using h
        · by_cases h3 : isStop env (env.sampleAt i) = true
          · simpa [genLoopAux, h1, h2, h3] using h
          · have hgrow : (out ++ env.decodeTok (env.sampleAt i)).length < 4096 + L := by
              have := hL (env.sampleAt i)
              simp only [List.length_append]
              omega
            by_cases h4 : env.seqLen ≤ pos + 1
            · simpa [genLoopAux, h1, h2, h3, h4] using hgrow
            · have hstep : genLoopAux env mt (fuel + 1) i pos out s f =
                  genLoopAux env mt fuel (i + 1) (pos + 1)
                    (out ++ env.decodeTok (env.sampleAt i))
                    (s ++ [env.sampleAt i]) (f + 1) := by
                simp [genLoopAux, h1, h2, h3, h4]
              rw [hstep]
              exact ih _ _ _ _ _ hgrow

/-- C4: as soon as the sampler returns the end-of-sequence or end-of-turn
token (at decode index `k`), the loop terminates: the sampled-token list ends
there (length `k + 1`) and exactly `k` further `Forward` calls were made (one
per earlier non-stop token, none for the stop token itself). -/
theorem C4_stop_terminates (env : GenEnv) (mt pos0 k : ℕ)
    (hk : k < (generate env mt pos0).2.1.length)
    (hstop : isStop env ((generate env mt pos0).2.1.getD k 0) = true) :
    (generate env mt pos0).2.1.length = k + 1 ∧
    (generate env mt pos0).2.2 = k := by
  obtain ⟨new, hs, hlen, hns, hout, hfwd⟩ :=
    genLoopAux_spec env mt (mt + 32) 0 pos0 [] [] 0
  have hnew : (generate env mt pos0).2.1 = new := by simpa [generate] using hs
  rw [hnew] at hk hstop
  have hlast : new.length = k + 1 := by
    by_contra hne
    have hk1 : k + 1 < new.length := by omega
    rw [hns k hk1] at hstop
    exact Bool.false_ne_true hstop
  refine ⟨by rw [hnew, hlast], ?_⟩
  have hcount := filter_length_of_stop_last env new k hlast hns hstop
  have : (generate env mt pos0).2.2 = 0 + (new.filter fun t => ! isStop env t).length := by
    simpa [generate] using hfwd
  rw [this, hcount]
  omega

/-- Witness environment: the sampler immediately returns the EOS id. -/
def envStopNow : GenEnv := ⟨2, 3, 1000, fun _ => 2, fun _ => [65]⟩

/-- Witness for C4: with a sampler that returns EOS at once and
`maxTokens = 10`, exactly one token is sampled and no decode `Forward` runs. -/
theorem C4_witness :
    (generate envStopNow 10 0).2.1.length = 0 + 1 ∧
    (generate envStopNow 10 0).2.2 = 0 :=
  C4_stop_terminates envStopNow 10 0 0 (by decide) (by decide)

/-- C5: decode iterations never exceed `maxTokens + 32` (the sampled-token
list is that short), the output is bounded by the absolute 4096-byte ceiling
plus one decoded piece, and once in the grace window (`i ≥ maxTokens`) the
loop stops as soon as the output ends with a sentence terminator. -/
theorem C5_generation_bounded (env : GenEnv) (mt pos0 L : ℕ)
    (hL : ∀ t, (env.decodeTok t).length ≤ L) :
    (generate env mt pos0).2.1.length ≤ mt + 32 ∧
    (generate env mt pos0).1.length < 4096 + L ∧
    (∀ fuel i pos out s f, mt ≤ i → graceEnd out = true →
      genLoopAux env mt fuel i pos out s f = (out, s, f)) := by
  refine ⟨?_, ?_, ?_⟩
  · obtain ⟨new, hs, hlen, -, -, -⟩ :=
      genLoopAux_spec env mt (mt + 32) 0 pos0 [] [] 0
    have hnew : (generate env mt pos0).2.1 = new := by simpa [generate] using hs
    rw [hnew]
    exact hlen
  · exact genLoopAux_output_bound env mt L hL (mt + 32) 0 pos0 [] [] 0 (by simp)
  · intro fuel i pos out s f hi hg
    cases fuel with
    | zero => simp [genLoopAux]
    | succ fuel =>
        by_cases h1 : 4096 ≤ out.length
        · simp [genLoopAux, h1]
        · simp [genLoopAux, h1, hi, hg]

/-- Witness environment: the sampler never stops and every piece is a single
non-terminator byte. -/
def envNoStop : GenEnv := ⟨2, 3, 1000, fun _ => 7, fun _ => [65]⟩

/-- Witness for C5: with `maxTokens = 5`, no stop token and no sentence
terminator ever produced, at most `5 + 32` tokens are sampled and the output
stays under the byte ceiling. -/
theorem C5_witness :
    (generate envNoStop 5 0).2.1.length ≤ 5 + 32 ∧
    (generate envNoStop 5 0).1.length < 4096 + 1 :=
  ⟨(C5_generation_bounded envNoStop 5 0 1 (fun _ => Nat.le_refl 1)).1,
   (C5_generation_bounded envNoStop 5 0 1 (fun _ => Nat.le_refl 1)).2.1⟩

/-- C10: the returned output is exactly the concatenation of the decoded
pieces of the non-stop sampled tokens — the stop check precedes decoding and
appending, so a stop token's text is never appended. -/
theorem C10_stop_text_never_appended (env : GenEnv) (mt pos0 : ℕ) :
    (generate env mt pos0).1 =
      ((generate env mt pos0).2.1.filter fun t => ! isStop env t).flatMap
        env.decodeTok := by
  obtain ⟨new, hs, -, -, hout, -⟩ :=
    genLoopAux_spec env mt (mt + 32) 0 pos0 [] [] 0
  have hnew : (generate env mt pos0).2.1 = new := by simpa [generate] using hs
  rw [hnew]
  simpa [generate] using hout

/-- `argmax` from `yent.go`: index of the first strictly-largest logit
(`best` starts at 0; each later index wins only by a strict improvement). -/
def argmaxGo (logits : List ℚ) : ℕ :=
  (List.range logits.length).foldl
    (fun best i => if logits.getD best 0 < logits.getD i 0 then i else best) 0

/-- The bubble-up insertion of `sampleTopK`'s scan: the new entry replaces the
table's last slot and swaps upward while strictly greater — equivalently, it
is inserted before the first entry with a strictly smaller value. -/
def bubbleIns (x : ℤ × ℚ) : List (ℤ × ℚ) → List (ℤ × ℚ)
  | [] => [x]
  | y :: ys => if y.2 < x.2 then x :: y :: ys else y :: bubbleIns x ys

/-- One iteration of `sampleTopK`'s scan over the vocabulary: index `i` enters
the table only if its logit strictly exceeds the table's last value. -/
def topStep (logits : List ℚ) (top : List (ℤ × ℚ)) (i : ℕ) : List (ℤ × ℚ) :=
  if (top.getLastD ((-1 : ℤ), negInf)).2 < logits.getD i 0 then
    bubbleIns ((i : ℤ), logits.getD i 0) top.dropLast
  else top

/-- The top-k table after scanning all of the vocabulary, starting from `k`
sentinel entries `(-1, -1e30)` (`sampleTopK` in `yent.go`). -/
def topScan (logits : List ℚ) (k : ℕ) : List (ℤ × ℚ) :=
  (List.range logits.length).foldl (topStep logits)
    (List.replicate k ((-1 : ℤ), negInf))

/-- The `(idx, prob)` pairs `sampleTopK` samples from: softmax weights over
the table until the first sentinel (`top[i].idx < 0` breaks the loop), zeros
afterwards (the probs array is zero-initialized). -/
def samplePairs (expFn : ℚ → ℚ) (temp maxVal : ℚ) :
    List (ℤ × ℚ) → List (ℤ × ℚ)
  | [] => []
  | e :: rest =>
    if 0 ≤ e.1 then
      (e.1, expFn ((e.2 - maxVal) / temp)) :: samplePairs expFn temp maxVal rest
    else (e :: rest).map fun e2 => (e2.1, 0)

/-- The inverse-CDF walk shared by both samplers: running prefix sums of the
probabilities, returning the first index whose cumulative sum reaches `r`. -/
def walkCdf : List (ℤ × ℚ) → ℚ → ℚ → Option ℤ
  | [], _, _ => none
  | e :: rest, r, cdf =>
    if r ≤ cdf + e.2 then some e.1 else walkCdf rest r (cdf + e.2)

/-- `sampleTopK` from `yent.go`: argmax for `temp ≤ 0`; otherwise clamp `k`
to the vocabulary size, scan for the top-k table, softmax over it (with the
break at the first sentinel), and inverse-CDF sample with `r = rng * sum`;
the final fallback returns `top[0].idx`. -/
def sampleTopK (expFn : ℚ → ℚ) (rng temp : ℚ) (topK0 : ℕ)
    (logits : List ℚ) : ℤ :=
  if temp ≤ 0 then (argmaxGo logits : ℤ)
  else
    let k := min topK0 logits.length
    let top := topScan logits k
    let pairs := samplePairs expFn temp (top.headD ((-1 : ℤ), negInf)).2 top
    let s := (pairs.map Prod.snd).sum
    match walkCdf pairs (rng * s) 0 with
    | some idx => idx
    | none => (top.headD ((-1 : ℤ), negInf)).1

-- ===== generic list helpers for the sampler proofs =====

theorem headD_mem {α : Type} (l : List α) (d : α) (h : l ≠ []) :
    l.headD d ∈ l := by
  cases l with
  | nil => exact absurd rfl h
  | cons a t => simp

theorem getLastD_mem {α : Type} : ∀ (l : List α) (d : α), l ≠ [] →
    l.getLastD d ∈ l := by
  intro l
  induction l with
  | nil => intro d h; exact absurd rfl h
  | cons a t ih =>
      intro d _
      rw [List.getLastD_cons]
      rcases eq_or_ne t [] with ht | ht
      · subst ht; simp
      · exact List.mem_cons_of_mem a (ih a ht)

theorem bubbleIns_mem (x : ℤ × ℚ) : ∀ (l : List (ℤ × ℚ)) (a : ℤ × ℚ),
    a ∈ bubbleIns x l ↔ a = x ∨ a ∈ l := by
  intro l
  induction l with
  | nil => intro a; simp [bubbleIns]
  | cons y ys ih =>
      intro a
      by_cases h : y.2 < x.2
      · simp [bubbleIns, h]
      · simp [bubbleIns, h, ih]
        tauto

theorem bubbleIns_length (x : ℤ × ℚ) : ∀ l : List (ℤ × ℚ),
    (bubbleIns x l).length = l.length + 1 := by
  intro l
  induction l with
  | nil => simp [bubbleIns]
  | cons y ys ih =>
      by_cases h : y.2 < x.2
      · simp [bubbleIns, h]
      · simp [bubbleIns, h, ih]

theorem bubbleIns_sorted (x : ℤ × ℚ) :
    ∀ l : List (ℤ × ℚ), l.Pairwise (fun u v : ℤ × ℚ => v.2 ≤ u.2) →
    (bubbleIns x l).Pairwise (fun u v : ℤ × ℚ => v.2 ≤ u.2) := by
  intro l
  induction l with
  | nil => intro _; simp [bubbleIns]
  | cons y ys ih =>
      intro hp
      rw [List.pairwise_cons] at hp
      by_cases h : y.2 < x.2
      · rw [bubbleIns, if_pos h, List.pairwise_cons]
        refine ⟨?_, List.pairwise_cons.mpr hp⟩
        intro a ha
        rcases List.mem_cons.mp ha with rfl | ha2
        · exact le_of_lt h
        · exact le_trans (hp.1 a ha2) (le_of_lt h)
      · rw [bubbleIns, if_neg h, List.pairwise_cons]
        refine ⟨?_, ih hp.2⟩
        intro a ha
        rcases (bubbleIns_mem x ys a).mp ha with rfl | ha2
        · exact not_lt.mp h
        · exact hp.1 a ha2

theorem bubbleIns_headD_ge (x : ℤ × ℚ) (l : List (ℤ × ℚ)) (d : ℤ × ℚ) :
    x.2 ≤ ((bubbleIns x l).headD d).2 := by
  cases l with
  | nil => simp [bubbleIns]
  | cons y ys =>
      by_cases h : y.2 < x.2
      · simp [bubbleIns, h]
      · simp [bubbleIns, h]
        exact not_lt.mp h

theorem bubbleIns_headD_cases (x : ℤ × ℚ) (l : List (ℤ × ℚ)) (d : ℤ × ℚ) :
    (bubbleIns x l).headD d = x ∨
    ((bubbleIns x l).headD d = l.headD d ∧ l ≠ []) := by
  cases l with
  | nil => left; simp [bubbleIns]
  | cons y ys =>
      by_cases h : y.2 < x.2
      · left; simp [bubbleIns, h]
      · right; simp [bubbleIns, h]

theorem pairwise_headD_ge (l : List (ℤ × ℚ)) (d : ℤ × ℚ)
    (h : l.Pairwise (fun u v : ℤ × ℚ => v.2 ≤ u.2)) :
    ∀ e ∈ l, e.2 ≤ (l.headD d).2 := by
  cases l with
  | nil => intro e he; simp at he
  | cons a t =>
      intro e he
      rw [List.pairwise_cons] at h
      rcases List.mem_cons.mp he with rfl | he2
      · simp
      · simpa using h.1 e he2

theorem headD_dropLast {α : Type} (l : List α) (d : α) (h : 2 ≤ l.length) :
    l.dropLast.headD d = l.headD d := by
  cases l with
  | nil => simp at h
  | cons a t =>
      cases t with
      | nil => simp at h
      | cons b u => simp [List.dropLast]

/-- Entry property of the top-k table: every slot is either the untouched
sentinel `(-1, -1e30)` or a real vocabulary index carrying its own logit,
which is strictly above the sentinel value. -/
def inTop (logits : List ℚ) (e : ℤ × ℚ) : Prop :=
  (e.1 = -1 ∧ e.2 = negInf) ∨
  (0 ≤ e.1 ∧ e.1 < (logits.length : ℤ) ∧
    e.2 = logits.getD e.1.toNat 0 ∧ negInf < e.2)

/-- Scan invariant: the table keeps length `k`, stays sorted by value
(non-increasing), and all entries are well-formed. -/
def topInv (logits : List ℚ) (k : ℕ) (T : List (ℤ × ℚ)) : Prop :=
  T.length = k ∧ T.Pairwise (fun u v : ℤ × ℚ => v.2 ≤ u.2) ∧
  ∀ e ∈ T, inTop logits e

theorem foldl_inv {β : Type} (f : β → ℕ → β) (inv : β → Prop) (Q : ℕ → Prop)
    (hstep : ∀ b a, Q a → inv b → inv (f b a)) :
    ∀ (l : List ℕ) (b : β), (∀ a ∈ l, Q a) → inv b → inv (l.foldl f b) := by
  intro l
  induction l with
  | nil => intro b _ h; simpa using h
  | cons a t ih =>
      intro b hQ h
      simp only [List.foldl_cons]
      exact ih (f b a) (fun x hx => hQ x (List.mem_cons_of_mem a hx))
        (hstep b a (hQ a (List.mem_cons_self a t)) h)

theorem foldl_est {β : Type} (f : β → ℕ → β) (inv P : β → Prop) (Q : ℕ → Prop)
    (hstep : ∀ b a, Q a → inv b → inv (f b a))
    (hkeep : ∀ b a, Q a → inv b → P b → P (f b a))
    (i : ℕ) (hest : ∀ b, inv b → P (f b i)) :
    ∀ (l : List ℕ) (b : β), (∀ a ∈ l, Q a) → i ∈ l → inv b →
      P (l.foldl f b) := by
  intro l
  induction l with
  | nil => intro b _ hi; simp at hi
  | cons a t ih =>
      intro b hQ hi hinv
      simp only [List.foldl_cons]
      rcases List.mem_cons.mp hi with rfl | hi2
      · have hrest := foldl_inv f (fun x => inv x ∧ P x) Q
          (fun b2 a2 hq h2 => ⟨hstep b2 a2 hq h2.1, hkeep b2 a2 hq h2.1 h2.2⟩)
          t (f b i) (fun x hx => hQ x (List.mem_cons_of_mem _ hx))
          ⟨hstep b i (hQ i (List.mem_cons_self i t)) hinv, hest b hinv⟩
        exact hrest.2
      · exact ih (f b a) (fun x hx => hQ x (List.mem_cons_of_mem a hx)) hi2
          (hstep b a (hQ a (List.mem_cons_self a t)) hinv)

theorem pairwise_replicate_ge (n : ℕ) (x : ℤ × ℚ) :
    (List.replicate n x).Pairwise (fun u v : ℤ × ℚ => v.2 ≤ u.2) := by
  induction n with
  | zero => simp
  | succ n ih =>
      rw [List.replicate_succ, List.pairwise_cons]
      exact ⟨fun a ha => by rw [List.eq_of_mem_replicate ha], ih⟩

theorem lastVal_ge (logits : List ℚ) (k : ℕ) (T : List (ℤ × ℚ))
    (hinv : topInv logits k T) (hTne : T ≠ []) :
    negInf ≤ (T.getLastD ((-1 : ℤ), negInf)).2 := by
  rcases hinv.2.2 _ (getLastD_mem T ((-1 : ℤ), negInf) hTne) with ⟨-, h2⟩ | ⟨-, -, -, h4⟩
  · rw [h2]
  · exact le_of_lt h4

theorem topInv_ne_nil (logits : List ℚ) (k : ℕ) (T : List (ℤ × ℚ))
    (hk : 1 ≤ k) (hinv : topInv logits k T) : T ≠ [] := by
  intro h0
  rw [h0] at hinv
  have := hinv.1
  simp at this
  omega

theorem topStep_inv (logits : List ℚ) (k : ℕ) (hk : 1 ≤ k) :
    ∀ (T : List (ℤ × ℚ)) (i : ℕ), i < logits.length → topInv logits k T →
    topInv logits k (topStep logits T i) := by
  intro T i hi hinv
  obtain ⟨hlen, hsort, hent⟩ := hinv
  unfold topStep
  by_cases h : (T.getLastD ((-1 : ℤ), negInf)).2 < logits.getD i 0
  · rw [if_pos h]
    have hTne : T ≠ [] := topInv_ne_nil logits k T hk ⟨hlen, hsort, hent⟩
    refine ⟨?_, ?_, ?_⟩
    · rw [bubbleIns_length, List.length_dropLast, hlen]
      omega
    · exact bubbleIns_sorted _ _ (hsort.sublist (List.dropLast_sublist T))
    · intro e he
      rcases (bubbleIns_mem _ _ e).mp he with rfl | he2
      · right
        have hlastge := lastVal_ge logits k T ⟨hlen, hsort, hent⟩ hTne
        refine ⟨Int.ofNat_nonneg i, ?_, ?_, lt_of_le_of_lt hlastge h⟩
        · show ((i : ℤ)) < (logits.length : ℤ)
          exact_mod_cast hi
        · show logits.getD i 0 = logits.getD ((i : ℤ)).toNat 0
          simp
      · exact hent e ((List.dropLast_sublist T).subset he2)
  · rw [if_neg h]
    exact ⟨hlen, hsort, hent⟩

theorem topScan_inv (logits : List ℚ) (k : ℕ) (hk : 1 ≤ k) :
    topInv logits k (topScan logits k) := by
  apply foldl_inv (topStep logits) (topInv logits k) (fun a => a < logits.length)
    (topStep_inv logits k hk) (List.range logits.length)
  · intro a ha
    exact List.mem_range.mp ha
  · refine ⟨by simp, pairwise_replicate_ge k _, ?_⟩
    intro e he
    rw [List.eq_of_mem_replicate he]
    left
    exact ⟨rfl, rfl⟩

theorem topStep_keep_head (logits : List ℚ) (k : ℕ) (hk : 1 ≤ k)
    (T : List (ℤ × ℚ)) (i : ℕ) (hinv : topInv logits k T)
    (hP : negInf < (T.headD ((-1 : ℤ), negInf)).2) :
    negInf < ((topStep logits T i).headD ((-1 : ℤ), negInf)).2 := by
  have hTne : T ≠ [] := topInv_ne_nil logits k T hk hinv
  unfold topStep
  by_cases h : (T.getLastD ((-1 : ℤ), negInf)).2 < logits.getD i 0
  · rw [if_pos h]
    have hx : negInf < logits.getD i 0 :=
      lt_of_le_of_lt (lastVal_ge logits k T hinv hTne) h
    rcases bubbleIns_headD_cases ((i : ℤ), logits.getD i 0) T.dropLast
        ((-1 : ℤ), negInf) with hc | ⟨hc, hne⟩
    · rw [hc]
      exact hx
    · rw [hc, headD_dropLast]
      · exact hP
      · have h1 : 0 < T.dropLast.length := List.length_pos.mpr hne
        rw [List.length_dropLast] at h1
        omega
  · rw [if_neg h]
    exact hP

theorem topStep_est_head (logits : List ℚ) (k : ℕ) (hk : 1 ≤ k)
    (T : List (ℤ × ℚ)) (i : ℕ) (hinv : topInv logits k T)
    (hgood : negInf < logits.getD i 0) :
    negInf < ((topStep logits T i).headD ((-1 : ℤ), negInf)).2 := by
  have hTne : T ≠ [] := topInv_ne_nil logits k T hk hinv
  unfold topStep
  by_cases h : (T.getLastD ((-1 : ℤ), negInf)).2 < logits.getD i 0
  · rw [if_pos h]
    exact lt_of_lt_of_le hgood
      (bubbleIns_headD_ge ((i : ℤ), logits.getD i 0) T.dropLast ((-1 : ℤ), negInf))
  · rw [if_neg h]
    have hlast : negInf < (T.getLastD ((-1 : ℤ), negInf)).2 :=
      lt_of_lt_of_le hgood (not_lt.mp h)
    exact lt_of_lt_of_le hlast
      (pairwise_headD_ge T ((-1 : ℤ), negInf) hinv.2.1 _
        (getLastD_mem T ((-1 : ℤ), negInf) hTne))

theorem topScan_head (logits : List ℚ) (k : ℕ) (hk : 1 ≤ k) (i : ℕ)
    (hi : i < logits.length) (hgood : negInf < logits.getD i 0) :
    negInf < ((topScan logits k).headD ((-1 : ℤ), negInf)).2 := by
  apply foldl_est (topStep logits) (topInv logits k)
    (fun T => negInf < (T.headD ((-1 : ℤ), negInf)).2) (fun a => a < logits.length)
    (topStep_inv logits k hk)
    (fun T a _ hinv hP => topStep_keep_head logits k hk T a hinv hP)
    i (fun T hinv => topStep_est_head logits k hk T i hinv hgood)
    (List.range logits.length) _ (fun a ha => List.mem_range.mp ha)
    (List.mem_range.mpr hi)
  refine ⟨by simp, pairwise_replicate_ge k _, ?_⟩
  intro e he
  rw [List.eq_of_mem_replicate he]
  left
  exact ⟨rfl, rfl⟩

theorem samplePairs_nonneg (expFn : ℚ → ℚ) (temp maxVal : ℚ)
    (hE : ∀ q, 0 < expFn q) :
    ∀ T : List (ℤ × ℚ), ∀ e2 ∈ samplePairs expFn temp maxVal T, 0 ≤ e2.2 := by
  intro T
  induction T with
  | nil => simp [samplePairs]
  | cons e rest ih =>
      intro e2 he2
      by_cases h : 0 ≤ e.1
      · rw [samplePairs, if_pos h] at he2
        rcases List.mem_cons.mp he2 with rfl | he3
        · exact le_of_lt (hE _)
        · exact ih e2 he3
      · rw [samplePairs, if_neg h] at he2
        obtain ⟨u, -, hu2⟩ := List.mem_map.mp he2
        rw [← hu2]

theorem samplePairs_pos_real (expFn : ℚ → ℚ) (temp maxVal : ℚ) :
    ∀ T : List (ℤ × ℚ), ∀ e2 ∈ samplePairs expFn temp maxVal T, 0 < e2.2 →
    ∃ e ∈ T, e2.1 = e.1 ∧ 0 ≤ e.1 := by
  intro T
  induction T with
  | nil => simp [samplePairs]
  | cons e rest ih =>
      intro e2 he2 hpos
      by_cases h : 0 ≤ e.1
      · rw [samplePairs, if_pos h] at he2
        rcases List.mem_cons.mp he2 with rfl | he3
        · exact ⟨e, List.mem_cons_self e rest, rfl, h⟩
        · obtain ⟨e3, he3T, hi, hn⟩ := ih e2 he3 hpos
          exact ⟨e3, List.mem_cons_of_mem e he3T, hi, hn⟩
      · rw [samplePairs, if_neg h] at he2
        obtain ⟨u, -, hu2⟩ := List.mem_map.mp he2
        rw [← hu2] at hpos
        simp at hpos

theorem walkCdf_pos : ∀ (l : List (ℤ × ℚ)) (r cdf : ℚ) (idx : ℤ),
    cdf < r → walkCdf l r cdf = some idx → ∃ e ∈ l, e.1 = idx ∧ 0 < e.2 := by
  intro l
  induction l with
  | nil => intro r cdf idx _ hw; simp [walkCdf] at hw
  | cons e rest ih =>
      intro r cdf idx hlt hw
      rw [walkCdf] at hw
      by_cases h : r ≤ cdf + e.2
      · rw [if_pos h] at hw
        refine ⟨e, List.mem_cons_self e rest, Option.some.inj hw |>.symm ▸ rfl, ?_⟩
        linarith
      · rw [if_neg h] at hw
        obtain ⟨e3, he3, hi, hp⟩ := ih r (cdf + e.2) idx (by linarith) hw
        exact ⟨e3, List.mem_cons_of_mem e he3, hi, hp⟩

theorem sampleTopK_eq (expFn : ℚ → ℚ) (rng temp : ℚ) (topK0 : ℕ)
    (logits : List ℚ) (ht : ¬ temp ≤ 0) :
    sampleTopK expFn rng temp topK0 logits =
      match walkCdf
          (samplePairs expFn temp
            ((topScan logits (min topK0 logits.length)).headD ((-1 : ℤ), negInf)).2
            (topScan logits (min topK0 logits.length)))
          (rng * ((samplePairs expFn temp
            ((topScan logits (min topK0 logits.length)).headD ((-1 : ℤ), negInf)).2
            (topScan logits (min topK0 logits.length))).map Prod.snd).sum) 0 with
      | some idx => idx
      | none =>
          ((topScan logits (min topK0 logits.length)).headD ((-1 : ℤ), negInf)).1 := by
  simp only [sampleTopK, if_neg ht]

/-- Whenever some logit strictly exceeds the `-1e30` sentinel, every return
path of `sampleTopK` (with positive temperature) yields a real vocabulary
index whose own logit strictly exceeds the sentinel. -/
theorem sampleTopK_real (expFn : ℚ → ℚ) (rng temp : ℚ) (topK0 : ℕ)
    (logits : List ℚ) (hE : ∀ q, 0 < expFn q) (ht : 0 < temp)
    (hk : 1 ≤ topK0) (hr0 : 0 ≤ rng) (hr1 : rng < 1)
    (hex : ∃ i, i < logits.length ∧ negInf < logits.getD i 0) :
    ∃ j : ℕ, sampleTopK expFn rng temp topK0 logits = (j : ℤ) ∧
      j < logits.length ∧ negInf < logits.getD j 0 := by
  obtain ⟨i0, hi0, hgood⟩ := hex
  have hvocab : 1 ≤ logits.length := by omega
  have hk1 : 1 ≤ min topK0 logits.length := le_min hk hvocab
  rw [sampleTopK_eq expFn rng temp topK0 logits (not_le.mpr ht)]
  set T := topScan logits (min topK0 logits.length) with hT
  have hinv : topInv logits (min topK0 logits.length) T :=
    topScan_inv logits _ hk1
  have hhead : negInf < (T.headD ((-1 : ℤ), negInf)).2 :=
    topScan_head logits _ hk1 i0 hi0 hgood
  have hTne : T ≠ [] := topInv_ne_nil logits _ T hk1 hinv
  have hheadmem : T.headD ((-1 : ℤ), negInf) ∈ T := headD_mem T _ hTne
  have hheadreal : 0 ≤ (T.headD ((-1 : ℤ), negInf)).1 ∧
      (T.headD ((-1 : ℤ), negInf)).1 < (logits.length : ℤ) ∧
      (T.headD ((-1 : ℤ), negInf)).2 =
        logits.getD (T.headD ((-1 : ℤ), negInf)).1.toNat 0 := by
    rcases hinv.2.2 _ hheadmem with ⟨-, h2⟩ | ⟨h1, h2, h3, -⟩
    · rw [h2] at hhead
      exact absurd hhead (lt_irrefl _)
    · exact ⟨h1, h2, h3⟩
  set pairs := samplePairs expFn temp (T.headD ((-1 : ℤ), negInf)).2 T with hpairsdef
  set s := (pairs.map Prod.snd).sum with hsdef
  have hreal_of_entry : ∀ e ∈ T, 0 ≤ e.1 →
      ∃ j : ℕ, e.1 = (j : ℤ) ∧ j < logits.length ∧ negInf < logits.getD j 0 := by
    intro e heT hpos
    rcases hinv.2.2 e heT with ⟨h1, -⟩ | ⟨-, h2, h3, h4⟩
    · rw [h1] at hpos
      exact absurd hpos (by norm_num)
    · refine ⟨e.1.toNat, (Int.toNat_of_nonneg hpos).symm, by omega, ?_⟩
      rw [← h3]
      exact h4
  cases hwalk : walkCdf pairs (rng * s) 0 with
  | none =>
      simp only [hwalk]
      obtain ⟨j, hj1, hj2, hj3⟩ :=
        hreal_of_entry (T.headD ((-1 : ℤ), negInf)) hheadmem hheadreal.1
      exact ⟨j, hj1, hj2, hj3⟩
  | some idx =>
      simp only [hwalk]
      obtain ⟨e0, rest, hTcons⟩ := List.exists_cons_of_ne_nil hTne
      have hheadeq : T.headD ((-1 : ℤ), negInf) = e0 := by
        rw [hTcons]
        rfl
      have h01 : 0 ≤ e0.1 := hheadeq ▸ hheadreal.1
      have hpairs : pairs =
          (e0.1, expFn ((e0.2 - (T.headD ((-1 : ℤ), negInf)).2) / temp)) ::
            samplePairs expFn temp (T.headD ((-1 : ℤ), negInf)).2 rest := by
        rw [hpairsdef, hTcons, samplePairs, if_pos h01]
      have hp0 : 0 < expFn ((e0.2 - (T.headD ((-1 : ℤ), negInf)).2) / temp) := hE _
      by_cases hcase : rng * s ≤ 0 +
          expFn ((e0.2 - (T.headD ((-1 : ℤ), negInf)).2) / temp)
      · rw [hpairs, walkCdf, if_pos hcase] at hwalk
        have hidx : idx = e0.1 := (Option.some.inj hwalk).symm
        obtain ⟨j, hj1, hj2, hj3⟩ := hreal_of_entry e0
          (hTcons ▸ List.mem_cons_self e0 rest) h01
        exact ⟨j, by rw [hidx, hj1], hj2, hj3⟩
      · have hr_pos : (0 : ℚ) < rng * s := by
          push_neg at hcase
          have := hp0
          linarith
        obtain ⟨e2, he2, he2idx, he2pos⟩ :=
          walkCdf_pos pairs (rng * s) 0 idx hr_pos hwalk
        obtain ⟨e, heT, heidx, hereal⟩ :=
          samplePairs_pos_real expFn temp (T.headD ((-1 : ℤ), negInf)).2 T e2
            (hpairsdef ▸ he2) he2pos
        obtain ⟨j, hj1, hj2, hj3⟩ := hreal_of_entry e heT hereal
        exact ⟨j, by rw [← he2idx, heidx, hj1], hj2, hj3⟩

/-- C9: with positive temperature the requested k is clamped to the
vocabulary size before use (the scan table has length `min k vocab`), and
whenever at least one logit strictly exceeds `-1e30` every return path of
`sampleTopK` yields an index in `[0, vocabSize)`; with every logit at the
`-1e30` sentinel the table retains its sentinel entries and the out-of-range
index `-1` is returned. -/
theorem C9_sampleTopK_range (expFn : ℚ → ℚ) (rng temp : ℚ) (topK0 : ℕ)
    (logits : List ℚ) (hE : ∀ q, 0 < expFn q) (ht : 0 < temp)
    (hk : 1 ≤ topK0) (hr0 : 0 ≤ rng) (hr1 : rng < 1)
    (hex : ∃ i, i < logits.length ∧ negInf < logits.getD i 0) :
    ((topScan logits (min topK0 logits.length)).length =
        min topK0 logits.length ∧ min topK0 logits.length ≤ logits.length) ∧
    (0 ≤ sampleTopK expFn rng temp topK0 logits ∧
      sampleTopK expFn rng temp topK0 logits < (logits.length : ℤ)) ∧
    sampleTopK (fun _ => 1) 0 1 2 [negInf, negInf] = -1 := by
  obtain ⟨i0, hi0, hgood⟩ := hex
  have hvocab : 1 ≤ logits.length := by omega
  have hk1 : 1 ≤ min topK0 logits.length := le_min hk hvocab
  refine ⟨⟨(topScan_inv logits _ hk1).1, min_le_right _ _⟩, ?_, ?_⟩
  · obtain ⟨j, hj1, hj2, -⟩ := sampleTopK_real expFn rng temp topK0 logits hE ht
      hk hr0 hr1 ⟨i0, hi0, hgood⟩
    rw [hj1]
    exact ⟨Int.ofNat_nonneg j, by exact_mod_cast hj2⟩
  · norm_num [sampleTopK, topScan, topStep, samplePairs, walkCdf, negInf,
      List.range_succ, List.replicate]

/-- Witness for C9 with a one-token vocabulary, logit 5 above the sentinel. -/
theorem C9_witness :
    0 ≤ sampleTopK (fun _ => 1) 0 1 1 [5] ∧
    sampleTopK (fun _ => 1) 0 1 1 [5] < (([5] : List ℚ).length : ℤ) :=
  (C9_sampleTopK_range (fun _ => 1) 0 1 1 [5] (fun _ => one_pos) one_pos
    (le_refl 1) (le_refl 0) (by norm_num)
    ⟨0, by norm_num, by norm_num [negInf]⟩).2.1

/-- The CJK suppression step of `Generate` (`yent.go`): when `DeltaAlpha == 0`
every blacklisted token id's logit is overwritten with the `-1e30` sentinel;
otherwise the logits pass through untouched.  The blacklist itself is built by
`buildCJKBlacklist` from the tokenizer's vocabulary; the tokenizer is outside
the embedded surface, so the id set is a parameter here. -/
def suppressionStep (deltaAlpha : ℚ) (cjk : List ℕ) (logits : List ℚ) :
    List ℚ :=
  if deltaAlpha = 0 then cjk.foldl (fun lg tok => lg.set tok negInf) logits
  else logits

/-- Whether the Delta Voice correction actually runs in `Generate`
(`y.delta != nil && y.DeltaAlpha > 0`). -/
def deltaCorrectionActive (y : YentEngine) : Prop :=
  y.delta ≠ none ∧ 0 < y.DeltaAlpha

theorem suppressFold_length (cjk : List ℕ) : ∀ logits : List ℚ,
    (cjk.foldl (fun lg tok => lg.set tok negInf) logits).length =
      logits.length := by
  induction cjk with
  | nil => intro logits; rfl
  | cons c rest ih =>
      intro logits
      simp only [List.foldl_cons]
      rw [ih]
      simp

theorem suppressFold_getD_not_mem (cjk : List ℕ) : ∀ (logits : List ℚ)
    (tok : ℕ), tok ∉ cjk →
    (cjk.foldl (fun lg tok2 => lg.set tok2 negInf) logits).getD tok 0 =
      logits.getD tok 0 := by
  induction cjk with
  | nil => intro logits tok _; rfl
  | cons c rest ih =>
      intro logits tok htok
      simp only [List.foldl_cons]
      rw [ih _ tok (fun h => htok (List.mem_cons_of_mem c h)),
        getD_set_other _ _ _ _
          (fun h => htok (by rw [← h]; exact List.mem_cons_self c rest))]

theorem suppressFold_getD_mem (cjk : List ℕ) : ∀ (logits : List ℚ) (tok : ℕ),
    tok ∈ cjk → tok < logits.length →
    (cjk.foldl (fun lg tok2 => lg.set tok2 negInf) logits).getD tok 0 =
      negInf := by
  induction cjk with
  | nil => intro logits tok h; simp at h
  | cons c rest ih =>
      intro logits tok htok hlt
      simp only [List.foldl_cons]
      by_cases hr : tok ∈ rest
      · exact ih _ tok hr (by simpa using hlt)
      · have hc : tok = c := by
          rcases List.mem_cons.mp htok with h | h
          · exact h
          · exact absurd h hr
        subst hc
        rw [suppressFold_getD_not_mem rest _ tok hr]
        exact getD_set_self logits tok negInf hlt

theorem suppressionStep_length (deltaAlpha : ℚ) (cjk : List ℕ)
    (logits : List ℚ) :
    (suppressionStep deltaAlpha cjk logits).length = logits.length := by
  unfold suppressionStep
  by_cases h : deltaAlpha = 0
  · rw [if_pos h, suppressFold_length]
  · rw [if_neg h]

theorem repWindow_length (p : ℚ) (vocab : ℕ) : ∀ (window : List ℤ)
    (lg : List ℚ), (applyRepWindow p vocab window lg).length = lg.length := by
  intro window
  induction window with
  | nil => intro lg; rfl
  | cons t rest ih =>
      intro lg
      unfold applyRepWindow
      simp only [List.foldl_cons]
      by_cases h : 0 ≤ t ∧ t < (vocab : ℤ)
      · rw [if_pos h]
        have := ih (lg.set t.toNat (penalizeLogit p (lg.getD t.toNat 0)))
        unfold applyRepWindow at this
        rw [this]
        simp
      · rw [if_neg h]
        have := ih lg
        unfold applyRepWindow at this
        exact this

theorem repStep_length (p : ℚ) (vocab : ℕ) (window : List ℤ) (lg : List ℚ) :
    (repStep p vocab window lg).length = lg.length := by
  unfold repStep
  by_cases h : 1 < p ∧ window ≠ []
  · rw [if_pos h, repWindow_length]
  · rw [if_neg h]

theorem penalize_keep_low (p v : ℚ) (hp : 1 < p) (hv : v ≤ negInf) :
    penalizeLogit p v ≤ negInf := by
  have hneg : v < 0 := lt_of_le_of_lt hv (by norm_num [negInf])
  rw [penalizeLogit, if_neg (not_lt.mpr (le_of_lt hneg))]
  nlinarith

theorem repWindow_keep_low (p : ℚ) (hp : 1 < p) (vocab tok : ℕ) :
    ∀ (window : List ℤ) (lg : List ℚ), lg.getD tok 0 ≤ negInf →
    (applyRepWindow p vocab window lg).getD tok 0 ≤ negInf := by
  intro window
  induction window with
  | nil => intro lg h; exact h
  | cons t rest ih =>
      intro lg h
      unfold applyRepWindow
      simp only [List.foldl_cons]
      have hbody : ∀ lg2 : List ℚ, lg2.getD tok 0 ≤ negInf →
          ((if 0 ≤ t ∧ t < (vocab : ℤ) then
              lg2.set t.toNat (penalizeLogit p (lg2.getD t.toNat 0))
            else lg2)).getD tok 0 ≤ negInf := by
        intro lg2 h2
        by_cases hin : 0 ≤ t ∧ t < (vocab : ℤ)
        · rw [if_pos hin]
          by_cases heq : t.toNat = tok
          · subst heq
            by_cases hlt : t.toNat < lg2.length
            · rw [getD_set_self _ _ _ hlt]
              exact penalize_keep_low p _ hp h2
            · rw [List.set_eq_of_length_le (not_lt.mp hlt)]
              exact h2
          · rw [getD_set_other _ _ _ _ heq]
            exact h2
        · rw [if_neg hin]
          exact h2
      have step := hbody lg h
      have := ih ((if 0 ≤ t ∧ t < (vocab : ℤ) then
          lg.set t.toNat (penalizeLogit p (lg.getD t.toNat 0)) else lg)) step
      unfold applyRepWindow at this
      exact this

theorem repStep_keep_low (p : ℚ) (vocab : ℕ) (window : List ℤ) (lg : List ℚ)
    (tok : ℕ) (h : lg.getD tok 0 ≤ negInf) :
    (repStep p vocab window lg).getD tok 0 ≤ negInf := by
  unfold repStep
  by_cases hg : 1 < p ∧ window ≠ []
  · rw [if_pos hg]
    exact repWindow_keep_low p hg.1 vocab tok window lg h
  · rw [if_neg hg]
    exact h

/-- C3 counterexample: with no delta loaded but `DeltaAlpha = 1/2` (reachable
through `SetAlpha`, e.g. the REPL's `/alpha` command, without a prior
successful `LoadDeltaVoice`), the correction is not active yet the suppression
step leaves the blacklisted token's logit untouched — suppression is keyed on
`DeltaAlpha == 0`, not on the correction being inactive. -/
theorem C3_counterexample :
    ¬ deltaCorrectionActive ⟨⟨5, 3⟩, none, 1 / 2⟩ ∧
    suppressionStep (1 / 2) [0] [5] = [5] ∧
    (5 : ℚ) ≠ negInf := by
  refine ⟨fun h => h.1 rfl, ?_, by norm_num [negInf]⟩
  norm_num [suppressionStep]

/-- The running-max loop at the top of `sampleTopP` (`maxVal := logits[0]`,
then strict improvements while scanning). -/
def maxLogit (logits : List ℚ) : ℚ :=
  logits.foldl (fun m l => if m < l then l else m) (logits.headD 0)

/-- The softmax normalizer of `sampleTopP` (`sum` over all exponentials). -/
def rawSum (expFn : ℚ → ℚ) (temp : ℚ) (logits : List ℚ) : ℚ :=
  ((List.range logits.length).map fun i =>
    expFn ((logits.getD i 0 - maxLogit logits) / temp)).sum

/-- The normalized candidate list of `sampleTopP`: `candidates[i] = {i, p_i}`
with `p_i = exp((logits[i] - maxVal) / temp) * invSum`. -/
def candList (expFn : ℚ → ℚ) (temp : ℚ) (logits : List ℚ) : List (ℤ × ℚ) :=
  (List.range logits.length).map fun i =>
    (((i : ℕ) : ℤ), expFn ((logits.getD i 0 - maxLogit logits) / temp) *
      (1 / rawSum expFn temp logits))

/-- The descending sort of `sampleTopP` (`sort.Slice` by probability). -/
def sortDesc (cands : List (ℤ × ℚ)) : List (ℤ × ℚ) :=
  cands.mergeSort fun u v => decide (v.2 ≤ u.2)

/-- The nucleus search of `sampleTopP`: walk the sorted candidates
accumulating probability mass until it reaches the threshold; returns the
nucleus prefix and its mass (`none` only for an empty candidate list or a
threshold above the total mass). -/
def findNucleus (topP : ℚ) : List (ℤ × ℚ) → ℚ → List (ℤ × ℚ) →
    Option (List (ℤ × ℚ) × ℚ)
  | [], _, _ => none
  | c :: cs, cum, acc =>
    if topP ≤ cum + c.2 then some (acc ++ [c], cum + c.2)
    else findNucleus topP cs (cum + c.2) (acc ++ [c])

/-- `sampleTopP` from `yent.go`: argmax for `temp ≤ 0`; otherwise softmax all
logits, sort descending, find the nucleus, and inverse-CDF sample within it
with `r = rng * cumsum`; both fallbacks return `candidates[0].idx`. -/
def sampleTopP (expFn : ℚ → ℚ) (rng temp topP : ℚ) (logits : List ℚ) : ℤ :=
  if temp ≤ 0 then (argmaxGo logits : ℤ)
  else
    let cands := sortDesc (candList expFn temp logits)
    match findNucleus topP cands 0 [] with
    | some pc =>
        match walkCdf pc.1 (rng * pc.2) 0 with
        | some idx => idx
        | none => (cands.headD ((-1 : ℤ), 0)).1
    | none => (cands.headD ((-1 : ℤ), 0)).1

theorem walkCdf_mem : ∀ (l : List (ℤ × ℚ)) (r cdf : ℚ) (idx : ℤ),
    walkCdf l r cdf = some idx → ∃ e ∈ l, e.1 = idx := by
  intro l
  induction l with
  | nil => intro r cdf idx hw; simp [walkCdf] at hw
  | cons e rest ih =>
      intro r cdf idx hw
      rw [walkCdf] at hw
      by_cases h : r ≤ cdf + e.2
      · rw [if_pos h] at hw
        exact ⟨e, List.mem_cons_self e rest, Option.some.inj hw⟩
      · rw [if_neg h] at hw
        obtain ⟨e3, he3, hi⟩ := ih r (cdf + e.2) idx hw
        exact ⟨e3, List.mem_cons_of_mem e he3, hi⟩

theorem sum_map_mul_const (l : List ℚ) (c : ℚ) :
    (l.map fun q => q * c).sum = l.sum * c := by
  induction l with
  | nil => simp
  | cons a t ih =>
      simp [ih]
      ring

theorem headD_append {α : Type} (l1 l2 : List α) (d : α) (h : l1 ≠ []) :
    (l1 ++ l2).headD d = l1.headD d := by
  cases l1 with
  | nil => exact absurd rfl h
  | cons a t => rfl

theorem rawSum_pos (expFn : ℚ → ℚ) (temp : ℚ) (logits : List ℚ)
    (hE : ∀ q, 0 < expFn q) (hne : logits ≠ []) :
    0 < rawSum expFn temp logits := by
  have hn0 : logits.length ≠ 0 :=
    fun h0 => hne (List.eq_nil_of_length_eq_zero h0)
  apply List.sum_pos
  · intro x hx
    obtain ⟨i, -, hix⟩ := List.mem_map.mp hx
    rw [← hix]
    exact hE _
  · simp [List.range_eq_nil, hn0]

theorem candList_mem_pos (expFn : ℚ → ℚ) (temp : ℚ) (logits : List ℚ)
    (hE : ∀ q, 0 < expFn q) (hne : logits ≠ []) :
    ∀ e ∈ candList expFn temp logits, 0 < e.2 := by
  intro e he
  obtain ⟨i, -, hie⟩ := List.mem_map.mp he
  rw [← hie]
  have hs := rawSum_pos expFn temp logits hE hne
  show 0 < expFn _ * (1 / rawSum expFn temp logits)
  exact mul_pos (hE _) (by rw [one_div]; exact inv_pos.mpr hs)

theorem candList_sum_one (expFn : ℚ → ℚ) (temp : ℚ) (logits : List ℚ)
    (hE : ∀ q, 0 < expFn q) (hne : logits ≠ []) :
    ((candList expFn temp logits).map Prod.snd).sum = 1 := by
  have hs := rawSum_pos expFn temp logits hE hne
  have hmap : (candList expFn temp logits).map Prod.snd =
      ((List.range logits.length).map fun i =>
        expFn ((logits.getD i 0 - maxLogit logits) / temp)).map
        fun q => q * (1 / rawSum expFn temp logits) := by
    unfold candList
    rw [List.map_map, List.map_map]
    rfl
  rw [hmap, sum_map_mul_const]
  show rawSum expFn temp logits * (1 / rawSum expFn temp logits) = 1
  field_simp

theorem sortDesc_perm (cands : List (ℤ × ℚ)) :
    (sortDesc cands).Perm cands := List.mergeSort_perm cands _

theorem sortDesc_pairwise (cands : List (ℤ × ℚ)) :
    (sortDesc cands).Pairwise (fun u v : ℤ × ℚ => v.2 ≤ u.2) := by
  have h := @List.sorted_mergeSort (ℤ × ℚ)
    (fun u v : ℤ × ℚ => decide (v.2 ≤ u.2))
    (fun a b c hab hbc => by
      simp only [decide_eq_true_eq] at hab hbc ⊢
      exact le_trans hbc hab)
    (fun a b => by
      rcases le_total a.2 b.2 with h | h <;> simp [h])
    cands
  exact h.imp fun h2 => of_decide_eq_true h2

theorem findNucleus_spec (topP : ℚ) : ∀ (l : List (ℤ × ℚ)) (cum : ℚ)
    (acc : List (ℤ × ℚ)), l ≠ [] → topP ≤ cum + (l.map Prod.snd).sum →
    ∃ l1 l2, l = l1 ++ l2 ∧ l1 ≠ [] ∧
      findNucleus topP l cum acc =
        some (acc ++ l1, cum + (l1.map Prod.snd).sum) := by
  intro l
  induction l with
  | nil => intro cum acc h; exact absurd rfl h
  | cons c cs ih =>
      intro cum acc _ hsum
      by_cases h : topP ≤ cum + c.2
      · refine ⟨[c], cs, rfl, by simp, ?_⟩
        rw [findNucleus, if_pos h]
        simp
      · have hcs : cs ≠ [] := by
          intro h0
          rw [h0] at hsum
          simp at hsum
          exact h (by linarith)
        obtain ⟨l1, l2, heq, hne1, hres⟩ := ih (cum + c.2) (acc ++ [c]) hcs
          (by
            simp only [List.map_cons, List.sum_cons] at hsum
            linarith)
        refine ⟨c :: l1, l2, by rw [heq, List.cons_append], by simp, ?_⟩
        rw [findNucleus, if_neg h, hres]
        have h1 : acc ++ [c] ++ l1 = acc ++ c :: l1 := by simp
        have h2 : cum + c.2 + (List.map Prod.snd l1).sum =
            cum + (List.map Prod.snd (c :: l1)).sum := by
          simp only [List.map_cons, List.sum_cons]
          ring
        rw [h1, h2]

theorem sampleTopP_eq (expFn : ℚ → ℚ) (rng temp topP : ℚ) (logits : List ℚ)
    (ht : ¬ temp ≤ 0) :
    sampleTopP expFn rng temp topP logits =
      match findNucleus topP (sortDesc (candList expFn temp logits)) 0 [] with
      | some pc =>
          (match walkCdf pc.1 (rng * pc.2) 0 with
           | some idx => idx
           | none =>
               ((sortDesc (candList expFn temp logits)).headD ((-1 : ℤ), 0)).1)
      | none =>
          ((sortDesc (candList expFn temp logits)).headD ((-1 : ℤ), 0)).1 := by
  simp only [sampleTopP, if_neg ht]

/-- C7: nucleus sampling always finds a nonempty nucleus whose first element
is the sorted head — a maximum-probability token — and the sampled index is
always drawn from that prefix; when the head's probability alone already
reaches `p`, the nucleus is exactly the head and the head's index is
returned. -/
theorem C7_sampleTopP_nucleus (expFn : ℚ → ℚ) (rng temp topP : ℚ)
    (logits : List ℚ) (hE : ∀ q, 0 < expFn q) (ht : 0 < temp)
    (hr0 : 0 ≤ rng) (hr1 : rng < 1) (hp0 : 0 < topP) (hp1 : topP ≤ 1)
    (hne : logits ≠ []) :
    ∃ pref cum,
      findNucleus topP (sortDesc (candList expFn temp logits)) 0 [] =
        some (pref, cum) ∧
      pref ≠ [] ∧
      pref.headD ((-1 : ℤ), 0) =
        (sortDesc (candList expFn temp logits)).headD ((-1 : ℤ), 0) ∧
      (∀ e ∈ sortDesc (candList expFn temp logits),
        e.2 ≤ (pref.headD ((-1 : ℤ), 0)).2) ∧
      sampleTopP expFn rng temp topP logits ∈ pref.map Prod.fst ∧
      (topP ≤ ((sortDesc (candList expFn temp logits)).headD ((-1 : ℤ), 0)).2 →
        pref = [(sortDesc (candList expFn temp logits)).headD ((-1 : ℤ), 0)] ∧
        sampleTopP expFn rng temp topP logits =
          ((sortDesc (candList expFn temp logits)).headD ((-1 : ℤ), 0)).1) := by
  have hperm := sortDesc_perm (candList expFn temp logits)
  have hsum1 : ((sortDesc (candList expFn temp logits)).map Prod.snd).sum = 1 := by
    rw [(hperm.map Prod.snd).sum_eq]
    exact candList_sum_one expFn temp logits hE hne
  have hcne : sortDesc (candList expFn temp logits) ≠ [] := by
    intro h0
    rw [h0] at hsum1
    simp at hsum1
  have hpos : ∀ e ∈ sortDesc (candList expFn temp logits), 0 < e.2 :=
    fun e he => candList_mem_pos expFn temp logits hE hne e (hperm.mem_iff.mp he)
  obtain ⟨l1, l2, heq, hne1, hres⟩ := findNucleus_spec topP
    (sortDesc (candList expFn temp logits)) 0 [] hcne (by rw [hsum1]; linarith)
  have hpref : findNucleus topP (sortDesc (candList expFn temp logits)) 0 [] =
      some (l1, (l1.map Prod.snd).sum) := by
    rw [hres]
    simp
  have hhead : l1.headD ((-1 : ℤ), 0) =
      (sortDesc (candList expFn temp logits)).headD ((-1 : ℤ), 0) := by
    rw [heq, headD_append _ _ _ hne1]
  have hsumpos : 0 < (l1.map Prod.snd).sum := by
    apply List.sum_pos
    · intro x hx
      obtain ⟨e, he, hex⟩ := List.mem_map.mp hx
      rw [← hex]
      exact hpos e (by rw [heq]; exact List.mem_append_left l2 he)
    · simpa using hne1
  have hrlt : rng * (l1.map Prod.snd).sum < (l1.map Prod.snd).sum := by
    nlinarith
  refine ⟨l1, (l1.map Prod.snd).sum, hpref, hne1, hhead, ?_, ?_, ?_⟩
  · intro e he
    rw [hhead]
    exact pairwise_headD_ge _ _ (sortDesc_pairwise (candList expFn temp logits)) e he
  · rw [sampleTopP_eq expFn rng temp topP logits (not_le.mpr ht), hpref]
    cases hwalk : walkCdf l1 (rng * (l1.map Prod.snd).sum) 0 with
    | none =>
        simp only [hwalk]
        rw [← hhead]
        obtain ⟨e0, t0, hcons⟩ := List.exists_cons_of_ne_nil hne1
        rw [hcons]
        simp
    | some idx =>
        simp only [hwalk]
        obtain ⟨e, he, hei⟩ := walkCdf_mem l1 _ 0 idx hwalk
        exact List.mem_map.mpr ⟨e, he, hei⟩
  · intro hbig
    obtain ⟨e0, t0, hcons⟩ :=
      List.exists_cons_of_ne_nil hcne
    have hheade0 : (sortDesc (candList expFn temp logits)).headD ((-1 : ℤ), 0)
        = e0 := by
      rw [hcons]
      rfl
    have hbig2 : topP ≤ e0.2 := by
      rw [hheade0] at hbig
      exact hbig
    have hfn : findNucleus topP (sortDesc (candList expFn temp logits)) 0 [] =
        some ([e0], 0 + e0.2) := by
      rw [hcons, findNucleus, if_pos (by linarith : topP ≤ 0 + e0.2)]
      simp
    rw [hpref] at hfn
    have hl1 : l1 = [e0] := congrArg (fun pc => pc.1) (Option.some.inj hfn)
    have hcum : (l1.map Prod.snd).sum = 0 + e0.2 :=
      congrArg (fun pc => pc.2) (Option.some.inj hfn)
    refine ⟨by rw [hl1, hheade0], ?_⟩
    rw [sampleTopP_eq expFn rng temp topP logits (not_le.mpr ht), hpref]
    have he0pos : 0 < e0.2 :=
      hpos e0 (by rw [hcons]; exact List.mem_cons_self e0 t0)
    have hwalk1 : walkCdf l1 (rng * (l1.map Prod.snd).sum) 0 = some e0.1 := by
      rw [hcum, hl1, walkCdf, if_pos (by nlinarith)]
    simp only [hwalk1]
    rw [hheade0]

/-- Witness for C7: uniform probabilities over a two-token vocabulary with
`p = 1/2` — the head's probability alone reaches the threshold. -/
theorem C7_witness :
    ∃ pref cum,
      findNucleus (1 / 2) (sortDesc (candList (fun _ => 1) 1 [2, 0])) 0 [] =
        some (pref, cum) ∧
      pref ≠ [] ∧
      pref.headD ((-1 : ℤ), 0) =
        (sortDesc (candList (fun _ => 1) 1 [2, 0])).headD ((-1 : ℤ), 0) ∧
      (∀ e ∈ sortDesc (candList (fun _ => 1) 1 [2, 0]),
        e.2 ≤ (pref.headD ((-1 : ℤ), 0)).2) ∧
      sampleTopP (fun _ => 1) 0 1 (1 / 2) [2, 0] ∈ pref.map Prod.fst ∧
      ((1 / 2 : ℚ) ≤
          ((sortDesc (candList (fun _ => 1) 1 [2, 0])).headD ((-1 : ℤ), 0)).2 →
        pref = [(sortDesc (candList (fun _ => 1) 1 [2, 0])).headD ((-1 : ℤ), 0)] ∧
        sampleTopP (fun _ => 1) 0 1 (1 / 2) [2, 0] =
          ((sortDesc (candList (fun _ => 1) 1 [2, 0])).headD ((-1 : ℤ), 0)).1) :=
  C7_sampleTopP_nucleus (fun _ => 1) 0 1 (1 / 2) [2, 0] (fun _ => one_pos)
    one_pos (le_refl 0) (by norm_num) (by norm_num) (by norm_num) (by simp)

theorem getLastD_replicate (k : ℕ) (x d : ℤ × ℚ) :
    (List.replicate k x).getLastD d = if k = 0 then d else x := by
  induction k generalizing d with
  | zero => simp
  | succ k2 ih =>
      rw [List.replicate_succ, List.getLastD_cons, ih]
      cases k2 with
      | zero => simp
      | succ k3 => simp

/-- With every logit at or below the sentinel, the strict-insert scan never
fires and the table stays all sentinels. -/
theorem topScan_all_low (logits : List ℚ) (k : ℕ)
    (hlow : ∀ i, i < logits.length → logits.getD i 0 ≤ negInf) :
    topScan logits k = List.replicate k ((-1 : ℤ), negInf) := by
  apply foldl_inv (topStep logits)
    (fun T => T = List.replicate k ((-1 : ℤ), negInf))
    (fun a => a < logits.length)
  · intro T i hQ hT
    subst hT
    unfold topStep
    rw [if_neg]
    rw [getLastD_replicate]
    have := hlow i hQ
    cases k with
    | zero => simpa using not_lt.mpr this
    | succ k2 => simpa using not_lt.mpr this
  · intro a ha
    exact List.mem_range.mp ha
  · rfl

theorem sum_map_zero (l : List (ℤ × ℚ)) :
    ((l.map fun e2 => (e2.1, (0 : ℚ))).map Prod.snd).sum = 0 := by
  induction l with
  | nil => simp
  | cons a t ih => simpa using ih

/-- With every logit at or below the sentinel, `sampleTopK` (positive
temperature) returns the sentinel index `-1`. -/
theorem sampleTopK_all_low (expFn : ℚ → ℚ) (rng temp : ℚ) (topK0 : ℕ)
    (logits : List ℚ) (ht : 0 < temp)
    (hlow : ∀ i, i < logits.length → logits.getD i 0 ≤ negInf) :
    sampleTopK expFn rng temp topK0 logits = -1 := by
  rw [sampleTopK_eq expFn rng temp topK0 logits (not_le.mpr ht),
    topScan_all_low logits _ hlow]
  cases hmk : min topK0 logits.length with
  | zero => simp [samplePairs, walkCdf]
  | succ k2 =>
      rw [List.replicate_succ]
      rw [show samplePairs expFn temp
          ((((-1 : ℤ), negInf) :: List.replicate k2 ((-1 : ℤ), negInf)).headD
            ((-1 : ℤ), negInf)).2
          (((-1 : ℤ), negInf) :: List.replicate k2 ((-1 : ℤ), negInf)) =
          (((-1 : ℤ), negInf) :: List.replicate k2 ((-1 : ℤ), negInf)).map
            fun e2 => (e2.1, 0) from by
        rw [samplePairs, if_neg (by norm_num)]]
      rw [sum_map_zero, mul_zero, List.map_cons, walkCdf,
        if_pos (by norm_num)]

/-- Every proper prefix of the nucleus has mass strictly below the threshold
(the crossing happens only at the nucleus's last element). -/
theorem findNucleus_min (topP : ℚ) : ∀ (l : List (ℤ × ℚ)) (cum : ℚ)
    (acc pref : List (ℤ × ℚ)) (cumR : ℚ),
    findNucleus topP l cum acc = some (pref, cumR) → cum < topP →
    ∃ l1, pref = acc ++ l1 ∧
      ∀ n, n < l1.length →
        cum + ((l1.take n).map Prod.snd).sum < topP := by
  intro l
  induction l with
  | nil => intro cum acc pref cumR hfn; simp [findNucleus] at hfn
  | cons c cs ih =>
      intro cum acc pref cumR hfn hcum
      rw [findNucleus] at hfn
      by_cases h : topP ≤ cum + c.2
      · rw [if_pos h] at hfn
        refine ⟨[c], (congrArg (fun pc => pc.1) (Option.some.inj hfn)).symm, ?_⟩
        intro n hn
        have hn0 : n = 0 := by simpa using hn
        subst hn0
        simpa using hcum
      · rw [if_neg h] at hfn
        obtain ⟨l1, hpref, hmin⟩ := ih (cum + c.2) (acc ++ [c]) pref cumR hfn
          (by linarith)
        refine ⟨c :: l1, by rw [hpref, List.append_assoc]; rfl, ?_⟩
        intro n hn
        cases n with
        | zero => simpa using hcum
        | succ m =>
            have hm : m < l1.length := by simpa using hn
            have := hmin m hm
            simp only [List.take_succ_cons, List.map_cons, List.sum_cons]
            linarith

theorem sum_filter_snd_le (p : (ℤ × ℚ) → Bool) : ∀ l : List (ℤ × ℚ),
    (∀ e ∈ l, 0 ≤ e.2) →
    ((l.filter p).map Prod.snd).sum ≤ (l.map Prod.snd).sum := by
  intro l
  induction l with
  | nil => intro _; simp
  | cons a t ih =>
      intro hnn
      have ht := ih fun e he => hnn e (List.mem_cons_of_mem a he)
      have ha := hnn a (List.mem_cons_self a t)
      by_cases hp : p a
      · rw [List.filter_cons_of_pos hp]
        simp only [List.map_cons, List.sum_cons]
        linarith
      · rw [List.filter_cons_of_neg hp]
        simp only [List.map_cons, List.sum_cons]
        linarith

/-- Shape of a candidate entry: index below the vocabulary size, probability
given by the softmax formula. -/
theorem candList_mem_elim (expFn : ℚ → ℚ) (temp : ℚ) (logits : List ℚ)
    (e : ℤ × ℚ) (he : e ∈ candList expFn temp logits) :
    ∃ i, i < logits.length ∧ e = (((i : ℕ) : ℤ),
      expFn ((logits.getD i 0 - maxLogit logits) / temp) *
        (1 / rawSum expFn temp logits)) := by
  obtain ⟨i, hi, hie⟩ := List.mem_map.mp he
  exact ⟨i, List.mem_range.mp hi, hie.symm⟩

/-- Strict separation: a candidate whose logit is at or below the sentinel
has strictly smaller probability than one whose logit is above it, for a
strictly monotone exponential. -/
theorem candList_prob_lt (expFn : ℚ → ℚ) (temp : ℚ) (logits : List ℚ)
    (hE : ∀ q, 0 < expFn q) (hmono : ∀ a b : ℚ, a < b → expFn a < expFn b)
    (ht : 0 < temp) (hne : logits ≠ []) (e f : ℤ × ℚ)
    (he : e ∈ candList expFn temp logits)
    (hf : f ∈ candList expFn temp logits)
    (hlowe : logits.getD e.1.toNat 0 ≤ negInf)
    (hhighf : negInf < logits.getD f.1.toNat 0) :
    e.2 < f.2 := by
  obtain ⟨i, hi, hie⟩ := candList_mem_elim expFn temp logits e he
  obtain ⟨j, hj, hjf⟩ := candList_mem_elim expFn temp logits f hf
  rw [hie] at hlowe ⊢
  rw [hjf] at hhighf ⊢
  simp only [Int.toNat_ofNat] at hlowe hhighf
  have hval : logits.getD i 0 < logits.getD j 0 := lt_of_le_of_lt hlowe hhighf
  have hdiv : (logits.getD i 0 - maxLogit logits) / temp <
      (logits.getD j 0 - maxLogit logits) / temp := by
    rw [div_lt_div_iff_of_pos_right ht]
    linarith
  have hexp := hmono _ _ hdiv
  have hinv : 0 < 1 / rawSum expFn temp logits := by
    rw [one_div]
    exact inv_pos.mpr (rawSum_pos expFn temp logits hE hne)
  exact mul_lt_mul_of_pos_right hexp hinv

/-- The probability mass carried by the candidates whose logit strictly
exceeds the `-1e30` sentinel.  In the real float32 code the exponential of a
suppressed logit underflows to exactly zero, so this mass is the full 1. -/
def highMass (expFn : ℚ → ℚ) (temp : ℚ) (logits : List ℚ) : ℚ :=
  (((candList expFn temp logits).filter fun f =>
    decide (negInf < logits.getD f.1.toNat 0)).map Prod.snd).sum

/-- The index `sampleTopP` returns is the first component of some nucleus
entry (covering the inverse-CDF hit and both `candidates[0].idx` fallbacks). -/
theorem sampleTopP_sampled (expFn : ℚ → ℚ) (rng temp topP : ℚ)
    (logits : List ℚ) (hE : ∀ q, 0 < expFn q) (ht : 0 < temp)
    (hp0 : 0 < topP) (hp1 : topP ≤ 1) (hne : logits ≠ []) :
    ∃ l1 l2, sortDesc (candList expFn temp logits) = l1 ++ l2 ∧ l1 ≠ [] ∧
      findNucleus topP (sortDesc (candList expFn temp logits)) 0 [] =
        some (l1, (l1.map Prod.snd).sum) ∧
      ∃ e ∈ l1, sampleTopP expFn rng temp topP logits = e.1 := by
  have hperm := sortDesc_perm (candList expFn temp logits)
  have hsum1 : ((sortDesc (candList expFn temp logits)).map Prod.snd).sum = 1 := by
    rw [(hperm.map Prod.snd).sum_eq]
    exact candList_sum_one expFn temp logits hE hne
  have hcne : sortDesc (candList expFn temp logits) ≠ [] := by
    intro h0
    rw [h0] at hsum1
    simp at hsum1
  obtain ⟨l1, l2, heq, hne1, hres⟩ := findNucleus_spec topP
    (sortDesc (candList expFn temp logits)) 0 [] hcne (by rw [hsum1]; linarith)
  have hpref : findNucleus topP (sortDesc (candList expFn temp logits)) 0 [] =
      some (l1, (l1.map Prod.snd).sum) := by
    rw [hres]
    simp
  refine ⟨l1, l2, heq, hne1, hpref, ?_⟩
  rw [sampleTopP_eq expFn rng temp topP logits (not_le.mpr ht), hpref]
  cases hwalk : walkCdf l1 (rng * (l1.map Prod.snd).sum) 0 with
  | none =>
      simp only [hwalk]
      refine ⟨l1.headD ((-1 : ℤ), 0), headD_mem l1 _ hne1, ?_⟩
      rw [heq, headD_append _ _ _ hne1]
  | some idx =>
      simp only [hwalk]
      obtain ⟨e, he, hei⟩ := walkCdf_mem l1 _ 0 idx hwalk
      exact ⟨e, he, hei.symm⟩

/-- As long as the candidates above the sentinel carry probability mass at
least `p`, the nucleus never reaches a sentinel-level token and `sampleTopP`
cannot return one. -/
theorem sampleTopP_excludes_low (expFn : ℚ → ℚ) (rng temp topP : ℚ)
    (logits : List ℚ) (hE : ∀ q, 0 < expFn q)
    (hmono : ∀ a b : ℚ, a < b → expFn a < expFn b) (ht : 0 < temp)
    (hp0 : 0 < topP) (hp1 : topP ≤ 1) (hne : logits ≠ [])
    (hmass : topP ≤ highMass expFn temp logits) (tok : ℕ)
    (hlowtok : logits.getD tok 0 ≤ negInf) :
    sampleTopP expFn rng temp topP logits ≠ (tok : ℤ) := by
  obtain ⟨l1, l2, heq, hne1, hpref, e, hel1, hsamp⟩ :=
    sampleTopP_sampled expFn rng temp topP logits hE ht hp0 hp1 hne
  intro habs
  have hperm := sortDesc_perm (candList expFn temp logits)
  have hecand : e ∈ candList expFn temp logits := by
    apply hperm.mem_iff.mp
    rw [heq]
    exact List.mem_append_left l2 hel1
  have he1 : e.1 = (tok : ℤ) := by rw [← hsamp, habs]
  have hlowe : logits.getD e.1.toNat 0 ≤ negInf := by
    rw [he1]
    simpa using hlowtok
  -- decompose the nucleus at e
  obtain ⟨A, B, hAB⟩ := List.append_of_mem hel1
  have hAlen : A.length < l1.length := by
    rw [hAB]
    simp
  have hAeq : l1.take A.length = A := by
    rw [hAB]
    exact List.take_left A (e :: B)
  -- every above-sentinel candidate sits strictly before e
  have hcands_decomp : sortDesc (candList expFn temp logits) =
      A ++ e :: (B ++ l2) := by
    rw [heq, hAB]
    simp
  have hpw := sortDesc_pairwise (candList expFn temp logits)
  rw [hcands_decomp] at hpw
  have htail : ∀ f ∈ e :: (B ++ l2),
      ¬ (negInf < logits.getD f.1.toNat 0) := by
    intro f hf hhighf
    have hfcand : f ∈ candList expFn temp logits := by
      apply hperm.mem_iff.mp
      rw [hcands_decomp]
      exact List.mem_append_right A hf
    have hlt := candList_prob_lt expFn temp logits hE hmono ht hne e f
      hecand hfcand hlowe hhighf
    rcases List.mem_cons.mp hf with rfl | hfB
    · exact absurd hlt (lt_irrefl _)
    · have hrel := (List.pairwise_cons.mp (List.pairwise_append.mp hpw).2.1).1
        f hfB
      exact absurd (lt_of_lt_of_le hlt hrel) (lt_irrefl _)
  -- the above-sentinel mass is confined to A, a proper nucleus prefix
  have hnil : (e :: (B ++ l2)).filter
      (fun f => decide (negInf < logits.getD f.1.toNat 0)) = [] :=
    List.filter_eq_nil_iff.mpr fun f hf => by simpa using htail f hf
  have hfilter : (sortDesc (candList expFn temp logits)).filter
      (fun f => decide (negInf < logits.getD f.1.toNat 0)) =
      A.filter fun f => decide (negInf < logits.getD f.1.toNat 0) := by
    rw [hcands_decomp, List.filter_append, hnil, List.append_nil]
  have hpos : ∀ f ∈ sortDesc (candList expFn temp logits), 0 < f.2 :=
    fun f hf => candList_mem_pos expFn temp logits hE hne f (hperm.mem_iff.mp hf)
  have hAnn : ∀ f ∈ A, 0 ≤ f.2 := by
    intro f hf
    apply le_of_lt
    apply hpos
    rw [hcands_decomp]
    exact List.mem_append_left _ hf
  have hmass_le : highMass expFn temp logits ≤ (A.map Prod.snd).sum := by
    have hfp := (hperm.filter
      (fun f => decide (negInf < logits.getD f.1.toNat 0))).symm
    unfold highMass
    rw [(hfp.map Prod.snd).sum_eq, hfilter]
    exact sum_filter_snd_le _ A hAnn
  obtain ⟨l1b, hl1b, hmin⟩ := findNucleus_min topP
    (sortDesc (candList expFn temp logits)) 0 [] l1 ((l1.map Prod.snd).sum)
    hpref hp0
  have hl1bl1 : l1b = l1 := by simpa using hl1b.symm
  have hlast := hmin A.length (by rw [hl1bl1]; exact hAlen)
  rw [hl1bl1, hAeq] at hlast
  linarith

/-- C3 (amended): suppression runs exactly when `DeltaAlpha = 0` (not
whenever the correction is inactive — see the counterexample): then every
blacklisted id inside the buffer is forced to the `-1e30` sentinel before the
repetition penalty (which keeps it at or below the sentinel) and before
sampling; the top-k sampler never returns a blacklisted id (when all logits
sit at the sentinel it returns `-1`, also not a blacklisted id), and the
nucleus (top-p) sampler — the default path, `topP < 1` — never returns one
provided the above-sentinel candidates carry probability mass at least `p`,
which models the real float32 behaviour where the exponential of a `-1e30`
logit underflows to exactly zero so that mass is the full 1; when
`DeltaAlpha ≠ 0` the suppression is skipped. -/
theorem C3_suppression_amended (cjk : List ℕ) (logits : List ℚ) (p : ℚ)
    (vocab : ℕ) (window : List ℤ) (alpha : ℚ) (expFn : ℚ → ℚ) (rng temp : ℚ)
    (topK0 : ℕ) (hE : ∀ q, 0 < expFn q) (ht : 0 < temp) (hk : 1 ≤ topK0)
    (hr0 : 0 ≤ rng) (hr1 : rng < 1) :
    (∀ tok ∈ cjk, tok < logits.length →
      (suppressionStep 0 cjk logits).getD tok 0 = negInf) ∧
    (alpha ≠ 0 → suppressionStep alpha cjk logits = logits) ∧
    (∀ tok ∈ cjk, tok < logits.length →
      (repStep p vocab window (suppressionStep 0 cjk logits)).getD tok 0
        ≤ negInf) ∧
    (∀ tok ∈ cjk,
      sampleTopK expFn rng temp topK0
        (repStep p vocab window (suppressionStep 0 cjk logits)) ≠
          (tok : ℤ)) ∧
    (∀ topP : ℚ, 0 < topP → topP ≤ 1 →
      (∀ a b : ℚ, a < b → expFn a < expFn b) → logits ≠ [] →
      topP ≤ highMass expFn temp
        (repStep p vocab window (suppressionStep 0 cjk logits)) →
      ∀ tok ∈ cjk,
        sampleTopP expFn rng temp topP
          (repStep p vocab window (suppressionStep 0 cjk logits)) ≠
            (tok : ℤ)) := by
  have hlow : ∀ tok ∈ cjk, tok < logits.length →
      (suppressionStep 0 cjk logits).getD tok 0 = negInf := by
    intro tok htok hlt
    rw [suppressionStep, if_pos rfl]
    exact suppressFold_getD_mem cjk logits tok htok hlt
  have hlen2 : (repStep p vocab window (suppressionStep 0 cjk logits)).length
      = logits.length := by
    rw [repStep_length, suppressionStep_length]
  have hkeep : ∀ tok ∈ cjk, tok < logits.length →
      (repStep p vocab window (suppressionStep 0 cjk logits)).getD tok 0
        ≤ negInf := by
    intro tok htok hlt
    exact repStep_keep_low p vocab window _ tok (le_of_eq (hlow tok htok hlt))
  refine ⟨hlow, fun ha => if_neg ha, hkeep, ?_, ?_⟩
  · intro tok htok
    by_cases hex : ∃ i,
        i < (repStep p vocab window (suppressionStep 0 cjk logits)).length ∧
        negInf <
          (repStep p vocab window (suppressionStep 0 cjk logits)).getD i 0
    · obtain ⟨j, hj1, hj2, hj3⟩ := sampleTopK_real expFn rng temp topK0
        (repStep p vocab window (suppressionStep 0 cjk logits)) hE ht hk hr0
        hr1 hex
      rw [hj1]
      intro heq
      have hjtok : j = tok := by exact_mod_cast heq
      subst hjtok
      rw [hlen2] at hj2
      have hle := hkeep j htok hj2
      linarith
    · push_neg at hex
      rw [sampleTopK_all_low expFn rng temp topK0 _ ht (fun i hi => hex i hi)]
      intro heq
      have := Int.ofNat_nonneg tok
      omega
  · intro topP hp0 hp1 hmono hne hmass tok htok
    have hne2 : repStep p vocab window (suppressionStep 0 cjk logits) ≠ [] := by
      intro h0
      apply hne
      apply List.eq_nil_of_length_eq_zero
      rw [← hlen2, h0]
      rfl
    by_cases htl : tok < logits.length
    · exact sampleTopP_excludes_low expFn rng temp topP _ hE hmono ht hp0 hp1
        hne2 hmass tok (hkeep tok htok htl)
    · obtain ⟨l1, l2, heq, hne1, hpref, e, hel1, hsamp⟩ :=
        sampleTopP_sampled expFn rng temp topP _ hE ht hp0 hp1 hne2
      have hecand : e ∈ candList expFn temp
          (repStep p vocab window (suppressionStep 0 cjk logits)) := by
        apply (sortDesc_perm _).mem_iff.mp
        rw [heq]
        exact List.mem_append_left l2 hel1
      obtain ⟨i, hi, hie⟩ := candList_mem_elim expFn temp _ e hecand
      rw [hsamp, hie]
      intro habs
      have hit : i = tok := by
        have habs2 : ((i : ℕ) : ℤ) = ((tok : ℕ) : ℤ) := habs
        exact_mod_cast habs2
      rw [hlen2] at hi
      omega

/-- Witness for C3 (amended): blacklist `{0}` over logits `[5, 7]`. -/
theorem C3_witness :
    (suppressionStep 0 [0] [5, 7]).getD 0 0 = negInf ∧
    suppressionStep 1 [0] [5, 7] = [5, 7] ∧
    sampleTopK (fun _ => 1) 0 1 1
        (repStep (23 / 20) 2 [] (suppressionStep 0 [0] [5, 7])) ≠
      ((0 : ℕ) : ℤ) :=
  have h := C3_suppression_amended [0] [5, 7] (23 / 20) 2 [] 1 (fun _ => 1)
    0 1 1 (fun _ => one_pos) one_pos (le_refl 1) (le_refl 0) (by norm_num)
  ⟨h.1 0 (by simp) (by simp),
   h.2.1 (by norm_num),
   h.2.2.2.1 0 (by simp)⟩

end Yent
